import Mathlib

/-!
Verification of the MUGEN configuration parser (`src/libmugen/parse.py`).

`MugenParser` subclasses Python's `configparser.RawConfigParser`, passing
`inline_comment_prefixes=(';', '#', ':')`, `comment_prefixes=(';', '#', ':')`,
`strict=False`, and overriding `SECTCRE` and `_read`.  The behaviour of `_read`
therefore also depends on attributes fixed by the base-class constructor with
their default values: `delimiters=('=', ':')`, `allow_no_value=False` (so
`_optcre` is the delimiter-requiring `OPT_TMPL` pattern),
`empty_lines_in_values=True`, `default_section="DEFAULT"`,
`optionxform=str.lower`, and the identity `Interpolation` used by
`_join_multiline_values`.  All of that is embedded below.

Lines are modelled as `List Char` (the code iterates the input line by line;
per the interface, line terminators are already stripped).  Inputs of interest
are ASCII, so `str.isspace`/`str.lower` are embedded on their ASCII range.
`sys.maxsize` sentinels are modelled by `Option Nat` with `none` standing for
the unreachable maximum (a real line's length is always below `sys.maxsize`).
-/

namespace Mugen

abbrev Line := List Char

/-- ASCII range of Python `str.isspace` (the inputs considered are ASCII). -/
def pyIsSpace (c : Char) : Bool :=
  c = ' ' || c = '\t' || c = '\n' || c = '\r' || c = '\x0b' || c = '\x0c'

/-- Drop the longest suffix whose characters satisfy `p`. -/
def dropTrailing (p : Char → Bool) (l : Line) : Line :=
  (l.reverse.dropWhile p).reverse

/-- Python `str.strip()` (no argument: strips whitespace at both ends). -/
def pyStrip (l : Line) : Line :=
  dropTrailing pyIsSpace (l.dropWhile pyIsSpace)

/-- Python `str.rstrip()`. -/
def pyRStrip (l : Line) : Line :=
  dropTrailing pyIsSpace l

/-- Index of the first occurrence of character `p`, as in Python `str.find`
(restricted to one-character needles, which is all `_read` uses). -/
def charFind : Line → Char → Option Nat
  | [], _ => Option.none
  | c :: cs, p => if c = p then some 0 else (charFind cs p).map (· + 1)

/-- Python `line.find(p, start)`: first occurrence at index `≥ start`. -/
def charFindFrom (l : Line) (p : Char) (start : Nat) : Option Nat :=
  (charFind (l.drop start) p).map (· + start)

/-- `inline_comment_prefixes=(';', '#', ':')` from `MugenParser.__init__`. -/
def inlineMarkers : List Char := [';', '#', ':']

/-- `comment_prefixes=(';', '#', ':')` from `MugenParser.__init__`. -/
def fullLineMarkers : List Char := [';', '#', ':']

/-- `delimiters=('=', ':')`, the `RawConfigParser` default. -/
def delimChars : List Char := ['=', ':']

/-- `default_section = "DEFAULT"` (`configparser.DEFAULTSECT`). -/
def defaultSectionName : Line := "DEFAULT".data

/-- Minimum of two optional numbers, `none` acting as `sys.maxsize`. -/
def minOpt : Option Nat → Option Nat → Option Nat
  | Option.none, b => b
  | some a, Option.none => some a
  | some a, some b => some (min a b)

/-- `index == 0 or (index > 0 and line[index-1].isspace())` from `_read`. -/
def validAt (l : Line) (i : Nat) : Bool :=
  i = 0 || (decide (0 < i) && pyIsSpace (l.getD (i - 1) 'x'))

/-- One iteration of the inline-comment scan of `_read`: advance every
surviving marker to its next occurrence; return the minimum over the valid
occurrences found in this round together with the surviving markers paired
with their next search positions. -/
def inlineRound (l : Line) : List (Char × Nat) → Option Nat × List (Char × Nat)
  | [] => (Option.none, [])
  | (p, start) :: rest =>
    let r := inlineRound l rest
    match charFindFrom l p start with
    | Option.none => r
    | some i =>
      (if validAt l i then minOpt (some i) r.1 else r.1, (p, i + 1) :: r.2)

/-- The `while comment_start == sys.maxsize and inline_prefixes` loop.  The
fuel argument is an upper bound on the number of rounds: every surviving
marker's search position strictly increases each round and is bounded by the
line length, so `l.length + 2` rounds always suffice. -/
def inlineLoop (l : Line) : Nat → List (Char × Nat) → Option Nat
  | 0, _ => Option.none
  | fuel + 1, markers =>
    if markers.isEmpty then Option.none
    else
      let r := inlineRound l markers
      match r.1 with
      | some i => some i
      | Option.none => inlineLoop l fuel r.2

/-- `line.strip().startswith(prefix)` for some full-line comment marker. -/
def isFullLineComment (l : Line) : Bool :=
  match (pyStrip l).head? with
  | some c => fullLineMarkers.contains c
  | Option.none => false

/-- The `comment_start` value computed by `_read` for one raw line: `none`
models `comment_start is None` (no comment found); the full-line check
overrides the inline scan with `0`. -/
def commentStart (l : Line) : Option Nat :=
  if isFullLineComment l then some 0
  else inlineLoop l (l.length + 2) (inlineMarkers.map (fun p => (p, 0)))

/-- `value = line[:comment_start].strip()`. -/
def effectiveValue (l : Line) : Line :=
  match commentStart l with
  | Option.none => pyStrip l
  | some i => pyStrip (l.take i)

/-- `NONSPACECRE.search(line)`: column of the first non-whitespace character,
`0` when the line is all whitespace. -/
def curIndentLevel (l : Line) : Nat :=
  match l.findIdx? (fun c => !(pyIsSpace c)) with
  | some i => i
  | Option.none => 0

/-- ASCII range of Python `str.lower`, one character. -/
def pyToLower (c : Char) : Char :=
  match c with
  | 'A' => 'a' | 'B' => 'b' | 'C' => 'c' | 'D' => 'd' | 'E' => 'e'
  | 'F' => 'f' | 'G' => 'g' | 'H' => 'h' | 'I' => 'i' | 'J' => 'j'
  | 'K' => 'k' | 'L' => 'l' | 'M' => 'm' | 'N' => 'n' | 'O' => 'o'
  | 'P' => 'p' | 'Q' => 'q' | 'R' => 'r' | 'S' => 's' | 'T' => 't'
  | 'U' => 'u' | 'V' => 'v' | 'W' => 'w' | 'X' => 'x' | 'Y' => 'y'
  | 'Z' => 'z' | c => c

/-- Python `str.lower`, and also `optionxform`. -/
def lowerLine (l : Line) : Line := l.map pyToLower

/-- Strip the literal space character at both ends (the `SECTCRE` pattern
uses a literal space, not a whitespace class). -/
def trimSpaces (l : Line) : Line :=
  dropTrailing (fun c => c = ' ') (l.dropWhile (fun c => c = ' '))

/-- `SECTCRE.match(value)` for the overridden pattern
`\[ *(?P<header>[^]]+?) *\]`, returning the `header` group.  The pattern is
anchored at the start; the closing bracket matched is necessarily the first
`]` of the string (everything before it is matched by `\[`, a space, or
`[^]]`).  With at least one character between the brackets, backtracking
yields: maximal leading spaces are absorbed by the first ` *` (capped so that
the interior stays nonempty), the lazy interior then excludes maximal
trailing spaces — so the group is the bracket interior with surrounding
spaces trimmed, except that an all-space interior yields a single space. -/
def sectMatch : Line → Option Line
  | [] => Option.none
  | c :: t =>
    if c = '[' then
      match charFind t ']' with
      | Option.none => Option.none
      | some p =>
        let seg := t.take p
        if seg.isEmpty then Option.none
        else if seg.all (fun x => x = ' ') then some [' ']
        else some (trimSpaces seg)
    else Option.none

/-- Result of `self._optcre.match(value)`.  With `allow_no_value=False`
(the `RawConfigParser` default, which `MugenParser.__init__` does not change)
the pattern is `OPT_TMPL`: `(?P<option>.*?)\s*(?P<vi>=|:)\s*(?P<value>.*)$`,
whose `value` group is always present on a match; the `Option` in `value`
keeps the shape of the `optval is not None` test of `_read` lines 152-158. -/
structure OptMatch where
  option : Line
  vi : Char
  value : Option Line
deriving DecidableEq

/-- Index of the first delimiter character (`=` or `:`). -/
def findFirstDelim : Line → Option Nat
  | [] => Option.none
  | c :: cs =>
    if delimChars.contains c then some 0 else (findFirstDelim cs).map (· + 1)

/-- `self._optcre.match(value)`.  The lazy `option` group makes the match
split at the first delimiter character; `\s*` before the delimiter removes
the whitespace run immediately preceding it from the `option` group, and the
`\s*` after it removes leading whitespace from the `value` group. -/
def optMatch (v : Line) : Option OptMatch :=
  match findFirstDelim v with
  | Option.none => Option.none
  | some d =>
    some ⟨dropTrailing pyIsSpace (v.take d), v.getD d '=',
          some ((v.drop (d + 1)).dropWhile pyIsSpace)⟩

/-- The value bound to an option name: Python `None` (valueless), a list of
fragments being collected by the current `_read` pass, or an already joined
string left over from a previous `_read` pass on the same parser instance. -/
inductive OptVal
  | pynone
  | frags (fs : List Line)
  | str (s : Line)
deriving DecidableEq

/-- A section: insertion-ordered mapping from option name to value. -/
abbrev Sect := List (Line × OptVal)

/-- Python-dict lookup. -/
def dictGet (d : Sect) (k : Line) : Option OptVal :=
  (d.find? (fun e => e.1 = k)).map (fun e => e.2)

/-- Python-dict assignment: update in place, else append. -/
def dictSet : Sect → Line → OptVal → Sect
  | [], k, v => [(k, v)]
  | e :: rest, k, v =>
    if e.1 = k then (k, v) :: rest else e :: dictSet rest k v

/-- `cursect[optname].append(x)`.  In every reachable state the looked-up
value is a fragment list; the other shapes (missing key, `None`, an already
joined string) would raise `KeyError`/`AttributeError` in Python and are
modelled as no-ops because they are unreachable. -/
def dictAppend : Sect → Line → Line → Sect
  | [], _, _ => []
  | e :: rest, k, x =>
    if e.1 = k then
      (match e.2 with
       | OptVal.frags fs => (k, OptVal.frags (fs ++ [x])) :: rest
       | v => (k, v) :: rest)
    else e :: dictAppend rest k x

/-- The persistent document state of a parser instance: `self._sections`
(insertion-ordered) and `self._defaults`.  (`self._proxies` carries no
independent information and is not modelled.) -/
structure PDoc where
  sections : List (Line × Sect)
  defaults : Sect
deriving DecidableEq

def emptyPDoc : PDoc := ⟨[], []⟩

/-- What `cursect` aliases when it is not `None`. -/
inductive SectRef
  | defaults
  | named (s : Line)
deriving DecidableEq

def getSect (d : PDoc) : SectRef → Sect
  | SectRef.defaults => d.defaults
  | SectRef.named s => ((d.sections.find? (fun e => e.1 = s)).map (fun e => e.2)).getD []

/-- Mutate the section `cursect` aliases. -/
def setSectOp (d : PDoc) (r : SectRef) (f : Sect → Sect) : PDoc :=
  match r with
  | SectRef.defaults => { d with defaults := f d.defaults }
  | SectRef.named s =>
    { d with sections := d.sections.map (fun e => if e.1 = s then (e.1, f e.2) else e) }

/-- An element of the `elements_added` set: a section name or a
`(sectname, optname)` pair (`sectname` is a possibly-`None` variable). -/
inductive ElemKey
  | sec (s : Line)
  | opt (s : Option Line) (o : Line)
deriving DecidableEq

/-- Python-set insertion. -/
def elemAdd (es : List ElemKey) (e : ElemKey) : List ElemKey :=
  if e ∈ es then es else es ++ [e]

/-- The terminal errors `_read` can raise: the strict-mode duplicate errors,
and the deferred `ParsingError` raised after the scan (its payload is the
list of `(lineno, line)` pairs accumulated by `_handle_error`). -/
inductive ReadError
  | duplicateSection (name : Line) (lineno : Nat)
  | duplicateOption (sect : Option Line) (name : Line) (lineno : Nat)
  | parsingError (lines : List (Nat × Line))
deriving DecidableEq

/-- The loop-carried state of one `_read` invocation, together with the
persistent document it mutates.  `indentLevel = none` models the
`sys.maxsize` sentinel. -/
structure ReadState where
  doc : PDoc
  elements : List ElemKey
  cursect : Option SectRef
  sectname : Option Line
  optname : Option Line
  indentLevel : Option Nat
  skipHeader : Bool
  err : Option (List (Nat × Line))
deriving DecidableEq

/-- State at the top of `_read`: fresh scratch state over the instance
document (`elements_added = set()`, `cursect = None`, `optname = None`,
`indent_level = 0`, `skip_header = True`, `e = None`). -/
def initState (d : PDoc) : ReadState :=
  ⟨d, [], Option.none, Option.none, Option.none, some 0, true, Option.none⟩

/-- The per-instance configuration `_read` consults: `self._strict` and
`self._empty_lines_in_values`.  `MugenParser` fixes `strict := false` and
leaves `empty_lines_in_values` at its default `true`. -/
structure Config where
  strict : Bool
  emptyLinesInValues : Bool
deriving DecidableEq

def mugenCfg : Config := ⟨false, true⟩

/-- Python truthiness of the `optname` variable (`None` and the empty string
are falsy: the `== broken ==`-style lines bind `optname` to `""`). -/
def optTruthy : Option Line → Bool
  | some l => !l.isEmpty
  | Option.none => false

/-- `cur_indent_level > indent_level`, with `none` as `sys.maxsize` (never
exceeded by the indent of a representable line). -/
def indentGT (cur : Nat) : Option Nat → Bool
  | some t => decide (t < cur)
  | Option.none => false

/-- The body of the `for lineno, line in enumerate(fp, start=1)` loop of
`MugenParser._read`, one line. -/
def processLine (cfg : Config) (st : ReadState) (lineno : Nat) (line : Line) :
    Except ReadError ReadState :=
  let cs := commentStart line
  let value := effectiveValue line
  if value.isEmpty then
    if cfg.emptyLinesInValues then
      -- add empty line to the value, but only if there was no comment on the
      -- line (and `cursect is not None and optname and
      -- cursect[optname] is not None`)
      if cs.isNone then
        match st.cursect, st.optname with
        | some ref, some optn =>
          if !optn.isEmpty &&
              (match dictGet (getSect st.doc ref) optn with
               | some v => !(v = OptVal.pynone)
               | Option.none => false) then
            Except.ok { st with doc := setSectOp st.doc ref (fun s => dictAppend s optn []) }
          else Except.ok st
        | _, _ => Except.ok st
      else Except.ok st
    else
      -- empty line marks end of value
      Except.ok { st with indentLevel := Option.none }
  else
    let curIndent := curIndentLevel line
    if st.cursect.isSome && optTruthy st.optname && indentGT curIndent st.indentLevel then
      -- continuation line
      match st.cursect, st.optname with
      | some ref, some optn =>
        Except.ok { st with doc := setSectOp st.doc ref (fun s => dictAppend s optn value) }
      | _, _ => Except.ok st
    else
      let st1 := { st with indentLevel := some curIndent }
      match sectMatch value with
      | some header =>
        -- section header: lower-cased name (the `LT` modification)
        let sectname := lowerLine header
        let st2 := { st1 with skipHeader := false }
        if (st2.doc.sections.find? (fun e => e.1 = sectname)).isSome then
          if cfg.strict && decide (ElemKey.sec sectname ∈ st2.elements) then
            Except.error (ReadError.duplicateSection sectname lineno)
          else
            Except.ok { st2 with
              cursect := some (SectRef.named sectname),
              elements := elemAdd st2.elements (ElemKey.sec sectname),
              sectname := some sectname,
              optname := Option.none }
        else if sectname = defaultSectionName then
          Except.ok { st2 with
            cursect := some SectRef.defaults,
            sectname := some sectname,
            optname := Option.none }
        else
          Except.ok { st2 with
            doc := { st2.doc with sections := st2.doc.sections ++ [(sectname, [])] },
            cursect := some (SectRef.named sectname),
            elements := elemAdd st2.elements (ElemKey.sec sectname),
            sectname := some sectname,
            optname := Option.none }
      | Option.none =>
        if st1.cursect.isNone then
          -- no section header yet: skip the line
          let st2 := { st1 with indentLevel := Option.none }
          if !st2.skipHeader then
            Except.ok { st2 with
              sectname := Option.none, optname := Option.none, cursect := Option.none }
          else Except.ok st2
        else
          match optMatch value with
          | some m =>
            let err' :=
              if m.option.isEmpty then some ((st1.err.getD []) ++ [(lineno, line)])
              else st1.err
            let optn := lowerLine (pyRStrip m.option)
            if cfg.strict && decide (ElemKey.opt st1.sectname optn ∈ st1.elements) then
              Except.error (ReadError.duplicateOption st1.sectname optn lineno)
            else
              let st2 := { st1 with
                err := err', elements := elemAdd st1.elements (ElemKey.opt st1.sectname optn) }
              match m.value, st2.cursect with
              | some ov, some ref =>
                Except.ok { st2 with
                  doc := setSectOp st2.doc ref
                    (fun s => dictSet s optn (OptVal.frags [pyStrip ov])),
                  optname := some optn }
              | Option.none, some ref =>
                -- valueless option handling (dead under `OPT_TMPL`)
                Except.ok { st2 with
                  doc := setSectOp st2.doc ref (fun s => dictSet s optn OptVal.pynone),
                  optname := some optn }
              | _, Option.none => Except.ok { st2 with optname := some optn }
          | Option.none =>
            -- LT: allow bogus lines
            Except.ok st1

/-- The whole `for` loop of `_read`. -/
def readAux (cfg : Config) : ReadState → Nat → List Line → Except ReadError ReadState
  | st, _, [] => Except.ok st
  | st, n, l :: ls =>
    match processLine cfg st n l with
    | Except.error e => Except.error e
    | Except.ok st' => readAux cfg st' (n + 1) ls

/-- `'\n'.join(fragments)`. -/
def joinNL : List Line → Line
  | [] => []
  | [f] => f
  | f :: fs => f ++ '\n' :: joinNL fs

/-- One value inside `_join_multiline_values`: fragment lists are joined
with newlines and right-stripped; non-lists are left alone (the base
`Interpolation.before_read` is the identity). -/
def joinOptVal : OptVal → OptVal
  | OptVal.frags fs => OptVal.str (pyRStrip (joinNL fs))
  | v => v

def joinSect (s : Sect) : Sect := s.map (fun e => (e.1, joinOptVal e.2))

/-- `self._join_multiline_values()`. -/
def joinPDoc (d : PDoc) : PDoc :=
  ⟨d.sections.map (fun e => (e.1, joinSect e.2)), joinSect d.defaults⟩

/-- One `_read` invocation over the given instance document: run the line
loop, raise the deferred `ParsingError` if any bogus line was recorded,
otherwise join multiline values. -/
def readLines (cfg : Config) (d : PDoc) (lines : List Line) : Except ReadError PDoc :=
  match readAux cfg (initState d) 1 lines with
  | Except.error e => Except.error e
  | Except.ok st =>
    match st.err with
    | some es => Except.error (ReadError.parsingError es)
    | Option.none => Except.ok (joinPDoc st.doc)

instance {e a : Type} [DecidableEq e] [DecidableEq a] : DecidableEq (Except e a) := fun x y =>
  match x, y with
  | Except.ok u, Except.ok v =>
    if h : u = v then isTrue (by rw [h]) else isFalse (by simp [h])
  | Except.error u, Except.error v =>
    if h : u = v then isTrue (by rw [h]) else isFalse (by simp [h])
  | Except.ok _, Except.error _ => isFalse (by simp)
  | Except.error _, Except.ok _ => isFalse (by simp)

/-- A fresh `MugenParser()` followed by one parse of the given lines. -/
def parseDoc (ls : List String) : Except ReadError PDoc :=
  readLines mugenCfg emptyPDoc (ls.map String.data)

/-- Modelled from the spec: §4.1's inline rule taken literally — "scan for
each inline marker's leftmost occurrence; a candidate occurrence is valid only
if it is at position 0 or immediately preceded by whitespace ... Among all
valid occurrences across all markers, take the minimum index as the comment
start".  This takes the minimum over all valid occurrences anywhere in the
line, for comparison with the code's round-based `inlineLoop`. -/
def specValid (l : Line) (i : Nat) : Bool :=
  inlineMarkers.contains (l.getD i ' ') && validAt l i

/-- Modelled from the spec: minimum index over all valid inline-marker
occurrences of the whole line (spec §4.1), `none` when there is none. -/
def specInlineStart (l : Line) : Option Nat :=
  ((List.range l.length).filter (fun i => specValid l i)).foldr
    (fun i acc => minOpt (some i) acc) Option.none

/-- Modelled from the spec: §4.1's comment-start position — the full-line
check, then the global minimum over valid inline occurrences. -/
def specCommentStart (l : Line) : Option Nat :=
  if isFullLineComment l then some 0 else specInlineStart l

/-- `n` spaces. -/
def spaces (n : Nat) : Line := List.replicate n ' '

/-- The option names bound in a section, in order. -/
def sectKeys (s : Sect) : List Line := s.map (fun e => e.1)

/-- The observable shape of a document: its section names with their option
names, and the option names of the defaults — everything except values. -/
def docShape (d : PDoc) : List (Line × List Line) × List Line :=
  (d.sections.map (fun e => (e.1, sectKeys e.2)), sectKeys d.defaults)


/-- The contribution of one marker to a round of the inline scan, searching
from `s`: its next occurrence, if that occurrence is valid. -/
def contribFrom (l : Line) (p : Char) (s : Nat) : Option Nat :=
  match charFindFrom l p s with
  | some i => if validAt l i then some i else Option.none
  | Option.none => Option.none

/-- First-round contribution of one marker: its first occurrence, if valid. -/
def contrib (l : Line) (p : Char) : Option Nat :=
  match charFind l p with
  | some i => if validAt l i then some i else Option.none
  | Option.none => Option.none

/-! ### Character-class side conditions used by the general theorems -/

/-- No whitespace characters at all. -/
abbrev wsFree (l : Line) : Prop := ∀ c ∈ l, pyIsSpace c = false

/-- No comment-marker characters (`;`, `#`, `:`). -/
abbrev markerFree (l : Line) : Prop := ∀ c ∈ l, inlineMarkers.contains c = false

/-- No delimiter characters (`=`, `:`). -/
abbrev delimFree (l : Line) : Prop := ∀ c ∈ l, delimChars.contains c = false

/-! ### Basic lemmas about the embedded string primitives -/

lemma charFind_eq_none {l : Line} {p : Char} (h : p ∉ l) : charFind l p = Option.none := by
  induction l with
  | nil => rfl
  | cons c cs ih =>
    have hc : ¬(c = p) := fun hh => h (by simp [hh])
    simp only [charFind, if_neg hc, ih (fun hm => h (List.mem_cons_of_mem _ hm)), Option.map_none']

lemma charFind_append {l2 : Line} {p : Char} :
    ∀ {l1 : Line}, p ∉ l1 →
      charFind (l1 ++ l2) p = (charFind l2 p).map (· + l1.length) := by
  intro l1
  induction l1 with
  | nil => intro _; simp [Option.map_id']
  | cons c l1 ih =>
    intro h
    have hc : ¬(c = p) := fun hh => h (by simp [hh])
    have h2 := ih (fun hm => h (List.mem_cons_of_mem _ hm))
    have h3 : charFind ((c :: l1) ++ l2) p = (charFind (l1 ++ l2) p).map (· + 1) := by
      simp [charFind, hc]
    rw [h3, h2, Option.map_map]
    cases charFind l2 p with
    | none => rfl
    | some x =>
      simp only [Option.map_some', Function.comp_apply, List.length_cons, Option.some.injEq]
      omega

lemma mem_of_mem_dropTrailing {p : Char → Bool} {l : Line} {c : Char}
    (h : c ∈ dropTrailing p l) : c ∈ l := by
  have := (List.dropWhile_sublist (l := l.reverse) p).mem (by simpa [dropTrailing] using h)
  simpa using this

lemma mem_of_mem_pyStrip {l : Line} {c : Char} (h : c ∈ pyStrip l) : c ∈ l :=
  (List.dropWhile_sublist _).mem (mem_of_mem_dropTrailing h)

lemma dropTrailing_cons {p : Char → Bool} {c : Char} (t : Line) (hc : p c = false) :
    dropTrailing p (c :: t) = c :: dropTrailing p t := by
  simp only [dropTrailing]
  rcases h : t.reverse.dropWhile p with _ | ⟨d, r⟩
  · simp [List.reverse_cons, List.dropWhile_append, h, hc]
  · simp [List.reverse_cons, List.dropWhile_append, h, hc]

lemma dropTrailing_append_single (p : Char → Bool) (l : Line) (a : Char) :
    dropTrailing p (l ++ [a]) = if p a then dropTrailing p l else l ++ [a] := by
  simp only [dropTrailing, List.reverse_append, List.reverse_singleton, List.singleton_append,
    List.dropWhile_cons]
  split <;> simp

lemma dropTrailing_eq_self {p : Char → Bool} {l : Line} {c : Char}
    (h : l.getLast? = some c) (hc : p c = false) : dropTrailing p l = l := by
  rcases List.eq_nil_or_concat l with rfl | ⟨l', a, rfl⟩
  · simp at h
  · have : a = c := by simpa using h
    subst this
    simp [dropTrailing_append_single, hc]

lemma dropTrailing_of_wsFree {l : Line} (h : wsFree l) : dropTrailing pyIsSpace l = l := by
  rcases List.eq_nil_or_concat l with rfl | ⟨l', a, rfl⟩
  · rfl
  · exact dropTrailing_eq_self (by simp) (h a (by simp))

lemma pyStrip_cons {c : Char} {t : Line} (hc : pyIsSpace c = false) :
    pyStrip (c :: t) = c :: dropTrailing pyIsSpace t := by
  simp only [pyStrip, List.dropWhile_cons, hc, Bool.false_eq_true, if_false]
  exact dropTrailing_cons t hc

lemma pyStrip_eq_self {l : Line} {c d : Char} (hh : l.head? = some c)
    (hc : pyIsSpace c = false) (hl : l.getLast? = some d) (hd : pyIsSpace d = false) :
    pyStrip l = l := by
  rcases l with _ | ⟨a, t⟩
  · simp at hh
  · have hac : a = c := by simpa using hh
    subst hac
    rw [pyStrip_cons hc]
    rcases t.eq_nil_or_concat with rfl | ⟨t', b, rfl⟩
    · rfl
    · have hbd : b = d := by
        rw [List.concat_eq_append, show a :: (t' ++ [b]) = (a :: t') ++ [b] by simp,
          List.getLast?_concat] at hl
        simpa using hl
      rw [List.concat_eq_append, dropTrailing_eq_self (l := t' ++ [b])
        (List.getLast?_concat _) (by rw [hbd]; exact hd)]

lemma pyStrip_of_wsFree {l : Line} (h : wsFree l) : pyStrip l = l := by
  rcases l with _ | ⟨a, t⟩
  · rfl
  · rw [pyStrip_cons (h a (by simp))]
    have : wsFree t := fun c hc => h c (List.mem_cons_of_mem _ hc)
    rw [dropTrailing_of_wsFree this]

lemma pyRStrip_of_wsFree {l : Line} (h : wsFree l) : pyRStrip l = l :=
  dropTrailing_of_wsFree h

lemma not_mem_of_markerFree {l : Line} (h : markerFree l) {p : Char}
    (hp : inlineMarkers.contains p = true) : p ∉ l :=
  fun hm => by rw [h p hm] at hp; cases hp

lemma inlineLoop_nil (l : Line) (fuel : Nat) : inlineLoop l fuel [] = Option.none := by
  cases fuel <;> simp [inlineLoop]

lemma inlineRound_of_none {l : Line} : ∀ {ms : List (Char × Nat)},
    (∀ e ∈ ms, charFindFrom l e.1 e.2 = Option.none) →
    inlineRound l ms = (Option.none, []) := by
  intro ms
  induction ms with
  | nil => intro _; rfl
  | cons e rest ih =>
    intro h
    have h1 := h e (by simp)
    have h2 := ih (fun x hx => h x (List.mem_cons_of_mem _ hx))
    rcases e with ⟨p, s⟩
    simp only [inlineRound, h2, h1]

lemma charFindFrom_zero (l : Line) (p : Char) : charFindFrom l p 0 = charFind l p := by
  simp [charFindFrom]

lemma isFullLineComment_eq_false {l : Line} (h : markerFree l) :
    isFullLineComment l = false := by
  unfold isFullLineComment
  rcases hh : (pyStrip l).head? with _ | ⟨c⟩
  · rfl
  · have hc : c ∈ l := mem_of_mem_pyStrip (List.mem_of_mem_head? hh)
    simpa [fullLineMarkers, inlineMarkers] using h c hc

lemma commentStart_eq_none {l : Line} (h : markerFree l) :
    commentStart l = Option.none := by
  unfold commentStart
  rw [isFullLineComment_eq_false h]
  have hr : inlineRound l (inlineMarkers.map (fun p => (p, 0))) = (Option.none, []) := by
    apply inlineRound_of_none
    intro e he
    have he' : e = (';', 0) ∨ e = ('#', 0) ∨ e = (':', 0) := by
      simpa [inlineMarkers] using he
    rcases he' with rfl | rfl | rfl
    · simp [charFindFrom_zero,
        charFind_eq_none (not_mem_of_markerFree h (p := ';') (by rfl))]
    · simp [charFindFrom_zero,
        charFind_eq_none (not_mem_of_markerFree h (p := '#') (by rfl))]
    · simp [charFindFrom_zero,
        charFind_eq_none (not_mem_of_markerFree h (p := ':') (by rfl))]
  simp only [Bool.false_eq_true, if_false]
  show inlineLoop l (l.length + 2) _ = Option.none
  rw [show l.length + 2 = (l.length + 1) + 1 by omega]
  simp [inlineLoop, hr, inlineLoop_nil]

lemma effectiveValue_of_markerFree {l : Line} (h : markerFree l) :
    effectiveValue l = pyStrip l := by
  simp [effectiveValue, commentStart_eq_none h]

lemma curIndentLevel_cons {c : Char} (t : Line) (hc : pyIsSpace c = false) :
    curIndentLevel (c :: t) = 0 := by
  simp [curIndentLevel, List.findIdx?_cons, hc]

lemma sectMatch_eq_none {l : Line} {c : Char} (hh : l.head? = some c) (hc : ¬(c = '[')) :
    sectMatch l = Option.none := by
  rcases l with _ | ⟨a, t⟩
  · rfl
  · have hac : a = c := by simpa using hh
    subst hac
    simp [sectMatch, hc]

lemma findFirstDelim_eq_none {l : Line} (h : delimFree l) :
    findFirstDelim l = Option.none := by
  induction l with
  | nil => rfl
  | cons c cs ih =>
    have hc := h c (by simp)
    have h2 := ih (fun x hx => h x (List.mem_cons_of_mem _ hx))
    simp only [findFirstDelim, hc, Bool.false_eq_true, if_false, h2, Option.map_none']

lemma findFirstDelim_append {l2 : Line} : ∀ {l1 : Line}, delimFree l1 →
    findFirstDelim (l1 ++ l2) = (findFirstDelim l2).map (· + l1.length) := by
  intro l1
  induction l1 with
  | nil => intro _; simp [Option.map_id']
  | cons c l1 ih =>
    intro h
    have hc := h c (by simp)
    have h2 := ih (fun x hx => h x (List.mem_cons_of_mem _ hx))
    have h3 : findFirstDelim ((c :: l1) ++ l2) =
        (findFirstDelim (l1 ++ l2)).map (· + 1) := by
      simp only [List.cons_append, findFirstDelim, hc, Bool.false_eq_true, if_false,
        List.append_eq]
    rw [h3, h2, Option.map_map]
    cases findFirstDelim l2 with
    | none => rfl
    | some x =>
      simp only [Option.map_some', Function.comp_apply, List.length_cons, Option.some.injEq]
      omega

lemma optMatch_eq_none {l : Line} (h : delimFree l) : optMatch l = Option.none := by
  simp [optMatch, findFirstDelim_eq_none h]

/-- First character, if any, is not whitespace. -/
abbrev headNotWs (l : Line) : Prop := ∀ c, l.head? = some c → pyIsSpace c = false

/-- Last character, if any, is not whitespace. -/
abbrev lastNotWs (l : Line) : Prop := ∀ c, l.getLast? = some c → pyIsSpace c = false

lemma headNotWs_of_wsFree {l : Line} (h : wsFree l) : headNotWs l := by
  intro c hc
  exact h c (List.mem_of_mem_head? hc)

lemma lastNotWs_of_wsFree {l : Line} (h : wsFree l) : lastNotWs l := by
  intro c hc
  exact h c (List.mem_of_mem_getLast? hc)

lemma dropWhile_ws_eq_self {l : Line} (h : headNotWs l) :
    l.dropWhile pyIsSpace = l := by
  rcases l with _ | ⟨c, t⟩
  · rfl
  · simp [List.dropWhile_cons, h c rfl]

lemma pyStrip_eq_self' {l : Line} (hne : l ≠ []) (hh : headNotWs l) (hl : lastNotWs l) :
    pyStrip l = l := by
  rcases l with _ | ⟨c, t⟩
  · cases hne rfl
  · rcases hg : (c :: t).getLast? with _ | ⟨d⟩
    · simp at hg
    · exact pyStrip_eq_self rfl (hh c rfl) hg (hl d hg)

lemma pyStrip_append_space {n : Line} (hn : n ≠ []) (h : wsFree n) :
    pyStrip (n ++ [' ']) = n := by
  rcases n with _ | ⟨c, t⟩
  · cases hn rfl
  · rw [List.cons_append, pyStrip_cons (h c (by simp)), dropTrailing_append_single]
    simp only [show pyIsSpace ' ' = true from rfl, if_true]
    rw [dropTrailing_of_wsFree (fun x hx => h x (List.mem_cons_of_mem _ hx))]

lemma getD_append_right' (l1 l2 : Line) (i : Nat) (c : Char) :
    (l1 ++ l2).getD (l1.length + i) c = l2.getD i c := by
  simp [List.getD, List.getElem?_append_right]

lemma optMatch_assign {n : Line} (v : Line) (hdl : delimFree n) (hwf : wsFree n) :
    optMatch (n ++ ' ' :: '=' :: ' ' :: v) =
      some ⟨n, '=', some (v.dropWhile pyIsSpace)⟩ := by
  have hf : findFirstDelim (n ++ ' ' :: '=' :: ' ' :: v) = some (n.length + 1) := by
    rw [findFirstDelim_append hdl]
    have h1 : findFirstDelim (' ' :: '=' :: ' ' :: v) = some 1 := by
      simp [findFirstDelim, delimChars]
    rw [h1, Option.map_some']
    exact congrArg some (Nat.add_comm 1 _)
  have htake : (n ++ ' ' :: '=' :: ' ' :: v).take (n.length + 1) = n ++ [' '] := by
    simp [List.take_append]
  have hget : (n ++ ' ' :: '=' :: ' ' :: v).getD (n.length + 1) '=' = '=' :=
    getD_append_right' n _ 1 '='
  have hdrop : (n ++ ' ' :: '=' :: ' ' :: v).drop (n.length + 1 + 1) = ' ' :: v := by
    rw [show n.length + 1 + 1 = n.length + 2 from rfl]
    simp [List.drop_append]
  have hdt : dropTrailing pyIsSpace (n ++ [' ']) = n := by
    rw [dropTrailing_append_single]
    simp only [show pyIsSpace ' ' = true from rfl, if_true]
    exact dropTrailing_of_wsFree hwf
  unfold optMatch
  rw [hf]
  simp only [htake, hget, hdrop, hdt, List.dropWhile_cons,
    show pyIsSpace ' ' = true from rfl, if_true]

lemma charFind_colonLine_other {n : Line} (v : Line) {p : Char}
    (hpmem : p ∉ n) (hps : ¬(p = ' ')) (hpc : ¬(p = ':')) :
    charFind (n ++ ' ' :: ':' :: ' ' :: v) p = (charFind v p).map (· + (n.length + 3)) := by
  rw [charFind_append hpmem]
  have hs1 : ¬(' ' = p) := fun h => hps h.symm
  have hs2 : ¬(':' = p) := fun h => hpc h.symm
  have hmid : charFind (' ' :: ':' :: ' ' :: v) p = (charFind v p).map (· + 3) := by
    simp only [charFind, if_neg hs1, if_neg hs2, Option.map_map]
    cases charFind v p with
    | none => rfl
    | some x =>
      simp only [Option.map_some', Function.comp_apply, Option.some.injEq]
      try omega
  rw [hmid, Option.map_map]
  cases charFind v p with
  | none => rfl
  | some x =>
    simp only [Option.map_some', Function.comp_apply, Option.some.injEq]
    omega

lemma commentStart_colonLine {n : Line} (v : Line) (hn : n ≠ []) (hmk : markerFree n)
    (hwf : wsFree n) :
    commentStart (n ++ ' ' :: ':' :: ' ' :: v) = some (n.length + 1) := by
  have hcolon : charFind (n ++ ' ' :: ':' :: ' ' :: v) ':' = some (n.length + 1) := by
    rw [charFind_append (not_mem_of_markerFree hmk (p := ':') (by rfl))]
    have : charFind (' ' :: ':' :: ' ' :: v) ':' = some 1 := by
      simp [charFind]
    rw [this, Option.map_some']
    exact congrArg some (Nat.add_comm 1 _)
  have hvalid : validAt (n ++ ' ' :: ':' :: ' ' :: v) (n.length + 1) = true := by
    unfold validAt
    have hg : (n ++ ' ' :: ':' :: ' ' :: v).getD (n.length + 1 - 1) 'x' = ' ' := by
      rw [show n.length + 1 - 1 = n.length + 0 by omega]
      exact getD_append_right' n _ 0 'x'
    rw [hg]
    simp [pyIsSpace]
  have hfl : isFullLineComment (n ++ ' ' :: ':' :: ' ' :: v) = false := by
    rcases n with _ | ⟨c, t⟩
    · cases hn rfl
    · unfold isFullLineComment
      rw [List.cons_append, pyStrip_cons (hwf c (by simp))]
      simpa [fullLineMarkers, inlineMarkers] using hmk c (by simp)
  unfold commentStart
  rw [hfl]
  simp only [Bool.false_eq_true, if_false]
  have hsemi := charFind_colonLine_other (n := n) v
    (not_mem_of_markerFree hmk (p := ';') (by rfl)) (by decide) (by decide)
  have hhash := charFind_colonLine_other (n := n) v
    (not_mem_of_markerFree hmk (p := '#') (by rfl)) (by decide) (by decide)
  have hround : (inlineRound (n ++ ' ' :: ':' :: ' ' :: v)
      (inlineMarkers.map (fun p => (p, 0)))).1 = some (n.length + 1) := by
    simp only [inlineMarkers, List.map_cons, List.map_nil, inlineRound,
      charFindFrom_zero, hcolon, hsemi, hhash, hvalid, if_true]
    rcases hj : charFind v ';' with _ | ⟨j⟩ <;> rcases hk : charFind v '#' with _ | ⟨k⟩ <;>
      · simp only [Option.map_none', Option.map_some']
        repeat' split
        all_goals simp [minOpt]
        all_goals omega
  rcases hfuel : (n ++ ' ' :: ':' :: ' ' :: v).length + 2 with _ | f
  · omega
  · rw [inlineLoop]
    simp only [List.map_cons, show (inlineMarkers.map (fun p => (p, 0))).isEmpty = false
      from rfl, Bool.false_eq_true, if_false]
    rw [show (inlineMarkers.map (fun p => (p, 0))) =
      [(';', 0), ('#', 0), (':', 0)] from rfl] at hround ⊢
    rcases hr : inlineRound (n ++ ' ' :: ':' :: ' ' :: v) [(';', 0), ('#', 0), (':', 0)] with ⟨m, next⟩
    rw [hr] at hround
    simp only at hround
    rw [hround]

lemma effectiveValue_colonLine {n : Line} (v : Line) (hn : n ≠ []) (hmk : markerFree n)
    (hwf : wsFree n) :
    effectiveValue (n ++ ' ' :: ':' :: ' ' :: v) = n := by
  unfold effectiveValue
  rw [commentStart_colonLine v hn hmk hwf]
  have ht : (n ++ ' ' :: ':' :: ' ' :: v).take (n.length + 1) = n ++ [' '] := by
    simp [List.take_append]
  simp only [ht, pyStrip_append_space hn hwf]

lemma sectKeys_dictAppend (s : Sect) (k x : Line) :
    sectKeys (dictAppend s k x) = sectKeys s := by
  induction s with
  | nil => rfl
  | cons e rest ih =>
    rcases e with ⟨k', v⟩
    by_cases h : k' = k
    · subst h
      cases v <;> simp [dictAppend, sectKeys]
    · simp only [dictAppend, if_neg h]
      simp [sectKeys] at ih ⊢
      exact ih

lemma docShape_setSectOp_append (d : PDoc) (r : SectRef) (k x : Line) :
    docShape (setSectOp d r (fun s => dictAppend s k x)) = docShape d := by
  rcases r with _ | s
  · simp [setSectOp, docShape, sectKeys_dictAppend]
  · simp only [setSectOp, docShape, Prod.mk.injEq]
    constructor
    · rw [List.map_map]
      apply List.map_congr_left
      intro e _
      by_cases h : e.1 = s <;> simp [h, sectKeys_dictAppend]
    · trivial

lemma isEmpty_eq_false {l : Line} (h : l ≠ []) : l.isEmpty = false := by
  rcases l with _ | ⟨c, t⟩
  · cases h rfl
  · rfl

lemma markerFree_optLine {n v : Line} (d : Char) (hd : inlineMarkers.contains d = false)
    (hmk : markerFree n) (hvmk : markerFree v) :
    markerFree (n ++ ' ' :: d :: ' ' :: v) := by
  intro c hc
  rcases List.mem_append.mp hc with h | h
  · exact hmk c h
  · rcases List.mem_cons.mp h with rfl | h
    · decide
    · rcases List.mem_cons.mp h with rfl | h
      · exact hd
      · rcases List.mem_cons.mp h with rfl | h
        · decide
        · exact hvmk c h

lemma headNotWs_optLine {n : Line} (rest : Line) (hn : n ≠ []) (hwf : wsFree n) :
    headNotWs (n ++ rest) := by
  rcases n with _ | ⟨c, t⟩
  · cases hn rfl
  · intro e he
    have hce : c = e := by simpa using he
    subst hce
    exact hwf c (by simp)

lemma lastNotWs_optLine {v : Line} (n : Line) (d1 d2 d3 : Char) (hv : v ≠ [])
    (hvl : lastNotWs v) : lastNotWs (n ++ d1 :: d2 :: d3 :: v) := by
  intro c hc
  rw [List.getLast?_append_of_ne_nil _ (by simp), show d1 :: d2 :: d3 :: v =
    [d1, d2, d3] ++ v from rfl, List.getLast?_append_of_ne_nil _ hv] at hc
  exact hvl c hc

lemma pyStrip_optLine {n v : Line} (d : Char) (hn : n ≠ []) (hwf : wsFree n) (hv : v ≠ [])
    (hvl : lastNotWs v) :
    pyStrip (n ++ ' ' :: d :: ' ' :: v) = n ++ ' ' :: d :: ' ' :: v :=
  pyStrip_eq_self' (by rcases n with _ | _ <;> simp_all) (headNotWs_optLine _ hn hwf)
    (lastNotWs_optLine n ' ' d ' ' hv hvl)

lemma curIndentLevel_append {n : Line} (rest : Line) (hn : n ≠ []) (hwf : wsFree n) :
    curIndentLevel (n ++ rest) = 0 := by
  rcases n with _ | ⟨c, t⟩
  · cases hn rfl
  · rw [List.cons_append]
    exact curIndentLevel_cons _ (hwf c (by simp))

lemma sectMatch_optLine {n : Line} (rest : Line) (hn : n ≠ []) (hbr : n.head? ≠ some '[') :
    sectMatch (n ++ rest) = Option.none := by
  rcases n with _ | ⟨c, t⟩
  · cases hn rfl
  · rw [List.cons_append]
    exact sectMatch_eq_none rfl (fun hc => hbr (by rw [hc]; rfl))

lemma processLine_assign (cfg : Config) (st : ReadState) (k : Nat) {ref : SectRef} (n v : Line)
    (hcur : st.cursect = some ref)
    (hng : (optTruthy st.optname && indentGT 0 st.indentLevel) = false)
    (hn : n ≠ []) (hmk : markerFree n) (hwf : wsFree n) (hdl : delimFree n)
    (hbr : n.head? ≠ some '[')
    (hv : v ≠ []) (hvmk : markerFree v) (hvh : headNotWs v) (hvl : lastNotWs v)
    (hstrict : (cfg.strict && decide (ElemKey.opt st.sectname (lowerLine n) ∈ st.elements)) = false) :
    processLine cfg st k (n ++ ' ' :: '=' :: ' ' :: v) =
      Except.ok { st with
        doc := setSectOp st.doc ref (fun s => dictSet s (lowerLine n) (OptVal.frags [v])),
        elements := elemAdd st.elements (ElemKey.opt st.sectname (lowerLine n)),
        optname := some (lowerLine n),
        indentLevel := some 0 } := by
  have hev : effectiveValue (n ++ ' ' :: '=' :: ' ' :: v) = n ++ ' ' :: '=' :: ' ' :: v := by
    rw [effectiveValue_of_markerFree (markerFree_optLine '=' (by decide) hmk hvmk),
      pyStrip_optLine '=' hn hwf hv hvl]
  have hne : (n ++ ' ' :: '=' :: ' ' :: v).isEmpty = false :=
    isEmpty_eq_false (by rcases n with _ | _ <;> simp_all)
  have hci := curIndentLevel_append (' ' :: '=' :: ' ' :: v) hn hwf
  have hsm := sectMatch_optLine (' ' :: '=' :: ' ' :: v) hn hbr
  have hom := optMatch_assign (n := n) v hdl hwf
  have hdw : v.dropWhile pyIsSpace = v := dropWhile_ws_eq_self hvh
  have hrs : pyRStrip n = n := pyRStrip_of_wsFree hwf
  have hps : pyStrip v = v := pyStrip_eq_self' hv hvh hvl
  have hnoe : n.isEmpty = false := isEmpty_eq_false hn
  simp only [processLine, hev, hne, Bool.false_eq_true, if_false, hci, hcur,
    Option.isSome_some, Bool.true_and, hng, hsm, hom, hdw, hrs, hps, hnoe, hstrict]
  rfl

lemma processLine_cont (cfg : Config) (st : ReadState) (k : Nat) {ref : SectRef} {optn : Line}
    (v : Line) (hcur : st.cursect = some ref) (hopt : st.optname = some optn) (hone : optn ≠ [])
    (hind : st.indentLevel = some 0)
    (hv : v ≠ []) (hvmk : markerFree v) (hvh : headNotWs v) (hvl : lastNotWs v) :
    processLine cfg st k (' ' :: ' ' :: v) =
      Except.ok { st with doc := setSectOp st.doc ref (fun s => dictAppend s optn v) } := by
  have hmkl : markerFree (' ' :: ' ' :: v) := by
    intro c hc
    rcases List.mem_cons.mp hc with rfl | h
    · decide
    · rcases List.mem_cons.mp h with rfl | h
      · decide
      · exact hvmk c h
  have hev : effectiveValue (' ' :: ' ' :: v) = v := by
    rw [effectiveValue_of_markerFree hmkl]
    show dropTrailing pyIsSpace ((' ' :: ' ' :: v).dropWhile pyIsSpace) = v
    rw [show (' ' :: ' ' :: v).dropWhile pyIsSpace = v.dropWhile pyIsSpace by
      simp [List.dropWhile_cons, pyIsSpace], dropWhile_ws_eq_self hvh]
    rcases v.eq_nil_or_concat with rfl | ⟨t, b, rfl⟩
    · cases hv rfl
    · rw [List.concat_eq_append]
      exact dropTrailing_eq_self (List.getLast?_concat _)
        (hvl b (by rw [List.concat_eq_append]; exact List.getLast?_concat _))
  have hne : v.isEmpty = false := isEmpty_eq_false hv
  have hci : curIndentLevel (' ' :: ' ' :: v) = 2 := by
    rcases v with _ | ⟨c, t⟩
    · cases hv rfl
    · have h1 : ((' ' :: ' ' :: c :: t).findIdx? (fun x => !(pyIsSpace x))) = some 2 := by
        rw [List.findIdx?_cons]
        simp only [show (!pyIsSpace ' ') = false from rfl, Bool.false_eq_true, if_false]
        rw [List.findIdx?_cons]
        simp only [show (!pyIsSpace ' ') = false from rfl, Bool.false_eq_true, if_false]
        rw [List.findIdx?_cons]
        simp only [hvh c rfl, Bool.not_false, if_true]
      simp [curIndentLevel, h1]
  have hoe : optn.isEmpty = false := isEmpty_eq_false hone
  simp only [processLine, hev, hne, Bool.false_eq_true, if_false, hci, hcur, hopt, hind,
    optTruthy, indentGT, hoe, Bool.not_false, Option.isSome_some, Bool.true_and,
    Bool.and_true, decide_eq_true_eq]
  rfl


lemma pyRStrip_eq_self' {l : Line} (h : l ≠ []) (hl : lastNotWs l) : pyRStrip l = l := by
  rcases l.eq_nil_or_concat with rfl | ⟨t, b, rfl⟩
  · cases h rfl
  · rw [List.concat_eq_append]
    exact dropTrailing_eq_self (List.getLast?_concat _)
      (hl b (by rw [List.concat_eq_append]; exact List.getLast?_concat _))

lemma processLine_assign_strict (cfg : Config) (st : ReadState) (k : Nat) (n v : Line)
    (hng : (optTruthy st.optname && indentGT 0 st.indentLevel) = false)
    (hcv : st.cursect.isSome = true)
    (hn : n ≠ []) (hmk : markerFree n) (hwf : wsFree n) (hdl : delimFree n)
    (hbr : n.head? ≠ some '[')
    (hv : v ≠ []) (hvmk : markerFree v) (hvl : lastNotWs v)
    (hmem : (cfg.strict && decide (ElemKey.opt st.sectname (lowerLine n) ∈ st.elements)) = true) :
    processLine cfg st k (n ++ ' ' :: '=' :: ' ' :: v) =
      Except.error (ReadError.duplicateOption st.sectname (lowerLine n) k) := by
  have hev : effectiveValue (n ++ ' ' :: '=' :: ' ' :: v) = n ++ ' ' :: '=' :: ' ' :: v := by
    rw [effectiveValue_of_markerFree (markerFree_optLine '=' (by decide) hmk hvmk),
      pyStrip_optLine '=' hn hwf hv hvl]
  have hne : (n ++ ' ' :: '=' :: ' ' :: v).isEmpty = false :=
    isEmpty_eq_false (by rcases n with _ | _ <;> simp_all)
  have hci := curIndentLevel_append (' ' :: '=' :: ' ' :: v) hn hwf
  have hsm := sectMatch_optLine (' ' :: '=' :: ' ' :: v) hn hbr
  have hom := optMatch_assign (n := n) v hdl hwf
  have hrs : pyRStrip n = n := pyRStrip_of_wsFree hwf
  have hnoe : n.isEmpty = false := isEmpty_eq_false hn
  rcases hcur : st.cursect with _ | ref
  · rw [hcur] at hcv; cases hcv
  · simp only [processLine, hev, hne, Bool.false_eq_true, if_false, hci, hcur,
      Option.isSome_some, Bool.true_and, hng, hsm, hom, hrs, hnoe, hmem]
    rfl

lemma readAux_cons_ok {cfg : Config} {st : ReadState} {k : Nat} {l : Line} {ls : List Line}
    {st' : ReadState} (h : processLine cfg st k l = Except.ok st') :
    readAux cfg st k (l :: ls) = readAux cfg st' (k + 1) ls := by
  rw [show readAux cfg st k (l :: ls) = (match processLine cfg st k l with
    | Except.error e => Except.error e
    | Except.ok st2 => readAux cfg st2 (k + 1) ls) from rfl, h]

lemma readAux_cons_err {cfg : Config} {st : ReadState} {k : Nat} {l : Line} {ls : List Line}
    {e : ReadError} (h : processLine cfg st k l = Except.error e) :
    readAux cfg st k (l :: ls) = Except.error e := by
  rw [show readAux cfg st k (l :: ls) = (match processLine cfg st k l with
    | Except.error e2 => Except.error e2
    | Except.ok st2 => readAux cfg st2 (k + 1) ls) from rfl, h]

lemma readLines_of_readAux {cfg : Config} {d : PDoc} {lines : List Line} {st : ReadState}
    (h : readAux cfg (initState d) 1 lines = Except.ok st) (he : st.err = Option.none) :
    readLines cfg d lines = Except.ok (joinPDoc st.doc) := by
  have h1 : readLines cfg d lines = (match st.err with
      | some es => Except.error (ReadError.parsingError es)
      | Option.none => Except.ok (joinPDoc st.doc)) := by
    unfold readLines
    rw [h]
  rw [h1, he]

lemma readLines_of_readAux_err {cfg : Config} {d : PDoc} {lines : List Line} {e : ReadError}
    (h : readAux cfg (initState d) 1 lines = Except.error e) :
    readLines cfg d lines = Except.error e := by
  unfold readLines
  rw [h]


lemma readAux_three {cfg : Config} {s0 s1 s2 s3 : ReadState} {l1 l2 l3 : Line}
    (h1 : processLine cfg s0 1 l1 = Except.ok s1)
    (h2 : processLine cfg s1 2 l2 = Except.ok s2)
    (h3 : processLine cfg s2 3 l3 = Except.ok s3) :
    readAux cfg s0 1 [l1, l2, l3] = Except.ok s3 := by
  rw [readAux_cons_ok h1, readAux_cons_ok h2, readAux_cons_ok h3]
  rfl

lemma readAux_three_err {cfg : Config} {s0 s1 s2 : ReadState} {l1 l2 l3 : Line}
    {e : ReadError}
    (h1 : processLine cfg s0 1 l1 = Except.ok s1)
    (h2 : processLine cfg s1 2 l2 = Except.ok s2)
    (h3 : processLine cfg s2 3 l3 = Except.error e) :
    readAux cfg s0 1 [l1, l2, l3] = Except.error e := by
  rw [readAux_cons_ok h1, readAux_cons_ok h2, readAux_cons_err h3]


lemma pyToLower_ne_D (c : Char) : pyToLower c ≠ 'D' := by
  unfold pyToLower
  split <;> simp_all

lemma lowerLine_ne_default (l : Line) : lowerLine l ≠ defaultSectionName := by
  intro h
  rcases l with _ | ⟨c, t⟩
  · exact absurd h (by decide)
  · have hD : pyToLower c = 'D' := by
      have h2 := congrArg List.head? h
      simpa [lowerLine, defaultSectionName] using h2
    exact pyToLower_ne_D c hD

lemma defaults_setSectOp {d : PDoc} {r : SectRef} {f : Sect → Sect}
    (hr : r ≠ SectRef.defaults) : (setSectOp d r f).defaults = d.defaults := by
  rcases r with _ | s2
  · cases hr rfl
  · rfl

lemma processLine_defaults_inv {cfg : Config} {st st' : ReadState} {k : Nat} {l : Line}
    (h : processLine cfg st k l = Except.ok st')
    (hd : st.doc.defaults = []) (hc : st.cursect ≠ some SectRef.defaults) :
    st'.doc.defaults = [] ∧ st'.cursect ≠ some SectRef.defaults := by
  simp only [processLine] at h
  repeat' split at h
  all_goals cases h
  all_goals try exact ⟨hd, hc⟩
  all_goals refine ⟨?_, ?_⟩
  all_goals try exact hd
  all_goals try exact hc
  all_goals try (solve | simp)
  all_goals try (solve | (refine Eq.trans (defaults_setSectOp ?_) hd; rintro rfl; simp_all))
  all_goals exact absurd (by assumption) (lowerLine_ne_default _)


lemma readAux_defaults_inv (cfg : Config) :
    ∀ (lines : List Line) (st st' : ReadState) (k : Nat),
      readAux cfg st k lines = Except.ok st' →
      st.doc.defaults = [] → st.cursect ≠ some SectRef.defaults →
      st'.doc.defaults = [] := by
  intro lines
  induction lines with
  | nil =>
    intro st st' k h hd _
    cases h
    exact hd
  | cons l ls ih =>
    intro st st' k h hd hc
    rcases hp : processLine cfg st k l with e | st2
    · rw [readAux_cons_err hp] at h
      cases h
    · rw [readAux_cons_ok hp] at h
      have h2 := processLine_defaults_inv hp hd hc
      exact ih st2 st' (k + 1) h h2.1 h2.2

lemma joinSect_nil : joinSect [] = [] := rfl


lemma mem_spaces {a : Nat} {c : Char} (h : c ∈ spaces a) : c = ' ' := by
  simpa [spaces] using List.eq_of_mem_replicate h

lemma charFind_rbracket {w : Line} (a b : Nat) (hw : ']' ∉ w) :
    charFind (spaces a ++ w ++ spaces b ++ [']']) ']' =
      some ((spaces a ++ w ++ spaces b).length) := by
  have h1 : ']' ∉ spaces a ++ w ++ spaces b := by
    intro hm
    rcases List.mem_append.mp hm with hm | hm
    · rcases List.mem_append.mp hm with hm | hm
      · exact absurd (mem_spaces hm) (by decide)
      · exact hw hm
    · exact absurd (mem_spaces hm) (by decide)
  rw [show spaces a ++ w ++ spaces b ++ [']'] = (spaces a ++ w ++ spaces b) ++ [']'] from
    by simp, charFind_append h1]
  simp [charFind]

lemma dropWhile_spaces (a : Nat) (rest : Line) :
    (spaces a ++ rest).dropWhile (fun c => c = ' ') = rest.dropWhile (fun c => c = ' ') := by
  induction a with
  | zero => simp [spaces]
  | succ m ih =>
    rw [show spaces (m + 1) = ' ' :: spaces m from by simp [spaces, List.replicate_succ],
      List.cons_append, List.dropWhile_cons_of_pos (by simp)]
    exact ih

lemma dropTrailing_spaces (p : Char → Bool) (hp : p ' ' = true) (l : Line) (b : Nat) :
    dropTrailing p (l ++ spaces b) = dropTrailing p l := by
  induction b with
  | zero => simp [spaces]
  | succ m ih =>
    rw [show spaces (m + 1) = spaces m ++ [' '] from by
      simp [spaces, List.replicate_succ'], ← List.append_assoc,
      dropTrailing_append_single, if_pos hp, ih]

lemma trimSpaces_spaces {w : Line} (a b : Nat) (hw : w ≠ []) (hh : w.head? ≠ some ' ')
    (hl : w.getLast? ≠ some ' ') :
    trimSpaces (spaces a ++ w ++ spaces b) = w := by
  unfold trimSpaces
  rw [List.append_assoc, dropWhile_spaces]
  rcases w with _ | ⟨c, t⟩
  · cases hw rfl
  · have hc : ¬(c = ' ') := fun h => hh (by rw [h]; rfl)
    rw [List.cons_append, List.dropWhile_cons_of_neg (by simpa using hc),
      show c :: (t ++ spaces b) = (c :: t) ++ spaces b from rfl,
      dropTrailing_spaces _ (by simp) _ b]
    rcases hg : (c :: t).getLast? with _ | ⟨d⟩
    · simp at hg
    · exact dropTrailing_eq_self hg (by
        simp only [decide_eq_false_iff_not]
        intro hde
        exact hl (by rw [hg, hde]))

lemma sectMatch_header {w : Line} (a b : Nat) (hw : w ≠ []) (hbr : ']' ∉ w)
    (hh : w.head? ≠ some ' ') (hl : w.getLast? ≠ some ' ') :
    sectMatch ('[' :: (spaces a ++ w ++ spaces b ++ [']'])) = some w := by
  rw [show sectMatch ('[' :: (spaces a ++ w ++ spaces b ++ [']'])) =
    (match charFind (spaces a ++ w ++ spaces b ++ [']']) ']' with
     | Option.none => Option.none
     | some p =>
       let seg := (spaces a ++ w ++ spaces b ++ [']']).take p
       if seg.isEmpty then Option.none
       else if seg.all (fun x => x = ' ') then some [' ']
       else some (trimSpaces seg)) from rfl, charFind_rbracket a b hbr]
  have htake : (spaces a ++ w ++ spaces b ++ [']']).take ((spaces a ++ w ++ spaces b).length) =
      spaces a ++ w ++ spaces b := by
    rw [show spaces a ++ w ++ spaces b ++ [']'] = (spaces a ++ w ++ spaces b) ++ [']'] from
      by simp, List.take_left]
  simp only [htake]
  have hne : (spaces a ++ w ++ spaces b).isEmpty = false := by
    apply isEmpty_eq_false
    simp [spaces, hw]
  rw [hne]
  have hc0 : ∃ c ∈ spaces a ++ w ++ spaces b, ¬((fun x => decide (x = ' ')) c = true) := by
    rcases w with _ | ⟨c, t⟩
    · cases hw rfl
    · refine ⟨c, by simp, ?_⟩
      simp only [decide_eq_true_eq]
      exact fun h => hh (by rw [h]; rfl)
  have hall : (spaces a ++ w ++ spaces b).all (fun x => x = ' ') = false := by
    rcases hc0 with ⟨c, hcm, hcp⟩
    rcases hal : (spaces a ++ w ++ spaces b).all (fun x => x = ' ') with _ | _
    · rfl
    · exact absurd (List.all_eq_true.mp hal c hcm) hcp
  simp only [Bool.false_eq_true, if_false, hall, trimSpaces_spaces a b hw hh hl]

lemma readAux_two {cfg : Config} {s0 s1 s2 : ReadState} {l1 l2 : Line}
    (h1 : processLine cfg s0 1 l1 = Except.ok s1)
    (h2 : processLine cfg s1 2 l2 = Except.ok s2) :
    readAux cfg s0 1 [l1, l2] = Except.ok s2 := by
  rw [readAux_cons_ok h1, readAux_cons_ok h2]
  rfl

lemma processLine_header_init (cfg : Config) (k : Nat) {w : Line} (a b : Nat)
    (hw : w ≠ []) (hbr : ']' ∉ w) (hmk : markerFree w)
    (hh : w.head? ≠ some ' ') (hl : w.getLast? ≠ some ' ') :
    processLine cfg (initState emptyPDoc) k ('[' :: (spaces a ++ w ++ spaces b ++ [']'])) =
      Except.ok ⟨⟨[(lowerLine w, [])], []⟩, [ElemKey.sec (lowerLine w)],
        some (SectRef.named (lowerLine w)), some (lowerLine w), Option.none, some 0, false,
        Option.none⟩ := by
  have hmkl : markerFree ('[' :: (spaces a ++ w ++ spaces b ++ [']'])) := by
    intro c hc
    rcases List.mem_cons.mp hc with rfl | hc
    · decide
    · rcases List.mem_append.mp hc with hc | hc
      · rcases List.mem_append.mp hc with hc | hc
        · rcases List.mem_append.mp hc with hc | hc
          · rw [mem_spaces hc]; decide
          · exact hmk c hc
        · rw [mem_spaces hc]; decide
      · rw [show c = ']' from by simpa using hc]; decide
  have hps : pyStrip ('[' :: (spaces a ++ w ++ spaces b ++ [']'])) =
      '[' :: (spaces a ++ w ++ spaces b ++ [']']) := by
    refine pyStrip_eq_self (c := '[') (d := ']') rfl (by decide) ?_ (by decide)
    rw [show '[' :: (spaces a ++ w ++ spaces b ++ [']']) =
      ('[' :: (spaces a ++ w ++ spaces b)) ++ [']'] from by simp]
    exact List.getLast?_concat _
  have hev : effectiveValue ('[' :: (spaces a ++ w ++ spaces b ++ [']'])) =
      '[' :: (spaces a ++ w ++ spaces b ++ [']']) := by
    rw [effectiveValue_of_markerFree hmkl, hps]
  have hci : curIndentLevel ('[' :: (spaces a ++ w ++ spaces b ++ [']'])) = 0 :=
    curIndentLevel_cons _ (by decide)
  have hsm := sectMatch_header a b hw hbr hh hl
  have hnd := lowerLine_ne_default w
  simp only [processLine, hev, hci, hsm, initState]
  rw [if_neg hnd]
  rfl


lemma joinNL_ne_nil : ∀ {fs : List Line}, fs ≠ [] → (∀ f ∈ fs, f ≠ []) → joinNL fs ≠ [] := by
  intro fs hne hall
  rcases fs with _ | ⟨f, rest⟩
  · cases hne rfl
  · rcases rest with _ | ⟨g, rest'⟩
    · exact hall f (by simp)
    · show f ++ '\n' :: joinNL (g :: rest') ≠ []
      simp

lemma lastNotWs_joinNL : ∀ (fs : List Line), (∀ f ∈ fs, f ≠ [] ∧ lastNotWs f) →
    lastNotWs (joinNL fs) := by
  intro fs
  induction fs with
  | nil =>
    intro _ c hc
    simp [joinNL] at hc
  | cons f rest ih =>
    intro h
    rcases rest with _ | ⟨g, rest'⟩
    · exact (h f (by simp)).2
    · intro c hc
      rw [show joinNL (f :: g :: rest') = f ++ '\n' :: joinNL (g :: rest') from rfl] at hc
      have hne : joinNL (g :: rest') ≠ [] :=
        joinNL_ne_nil (by simp) (fun x hx => (h x (List.mem_cons_of_mem _ hx)).1)
      rw [List.getLast?_append_of_ne_nil _ (by simp),
        show '\n' :: joinNL (g :: rest') = ['\n'] ++ joinNL (g :: rest') from rfl,
        List.getLast?_append_of_ne_nil _ hne] at hc
      exact ih (fun x hx => h x (List.mem_cons_of_mem _ hx)) c hc

lemma dictGet_cons (key : Line) (v : OptVal) (rest : Sect) (k2 : Line) :
    dictGet ((key, v) :: rest) k2 = if key = k2 then some v else dictGet rest k2 := by
  by_cases hk : key = k2
  · rw [if_pos hk]
    unfold dictGet
    rw [List.find?_cons_of_pos _ (by simp [hk])]
    rfl
  · rw [if_neg hk]
    unfold dictGet
    rw [List.find?_cons_of_neg _ (by simp [hk])]

lemma dictGet_joinSect_pynone : ∀ (s : Sect) (optn : Line),
    dictGet s optn = some OptVal.pynone →
    dictGet (joinSect s) optn = some OptVal.pynone := by
  intro s optn h
  induction s with
  | nil => simp [dictGet] at h
  | cons e rest ih =>
    rcases e with ⟨key, v⟩
    rw [dictGet_cons] at h
    rw [show joinSect ((key, v) :: rest) = (key, joinOptVal v) :: joinSect rest from rfl,
      dictGet_cons]
    by_cases hk : key = optn
    · rw [if_pos hk] at h ⊢
      have hv : v = OptVal.pynone := by
        injection h
      subst hv
      rfl
    · rw [if_neg hk] at h ⊢
      exact ih h

lemma readAux_conts : ∀ (vs : List Line) (k : Nat) (acc : List Line),
    (∀ v ∈ vs, v ≠ [] ∧ markerFree v ∧ headNotWs v ∧ lastNotWs v) →
    readAux mugenCfg
      ⟨⟨[("info".data, [("desc".data, OptVal.frags acc)])], []⟩,
        [ElemKey.sec "info".data, ElemKey.opt (some "info".data) "desc".data],
        some (SectRef.named "info".data), some "info".data, some "desc".data, some 0, false,
        Option.none⟩ k (vs.map (fun v => ' ' :: ' ' :: v)) =
      Except.ok ⟨⟨[("info".data, [("desc".data, OptVal.frags (acc ++ vs))])], []⟩,
        [ElemKey.sec "info".data, ElemKey.opt (some "info".data) "desc".data],
        some (SectRef.named "info".data), some "info".data, some "desc".data, some 0, false,
        Option.none⟩ := by
  intro vs
  induction vs with
  | nil =>
    intro k acc _
    simp [readAux]
  | cons v rest ih =>
    intro k acc hvs
    obtain ⟨hv, hmk, hh, hl⟩ := hvs v (by simp)
    have hstep := processLine_cont mugenCfg
      ⟨⟨[("info".data, [("desc".data, OptVal.frags acc)])], []⟩,
        [ElemKey.sec "info".data, ElemKey.opt (some "info".data) "desc".data],
        some (SectRef.named "info".data), some "info".data, some "desc".data, some 0, false,
        Option.none⟩ k v rfl rfl (by decide) rfl hv hmk hh hl
    rw [List.map_cons, readAux_cons_ok hstep]
    have hgoal := ih (k + 1) (acc ++ [v]) (fun x hx => hvs x (List.mem_cons_of_mem _ hx))
    have hfin : acc ++ [v] ++ rest = acc ++ v :: rest := by simp
    rw [hfin] at hgoal
    exact hgoal

/-! ### First-occurrence analysis of the inline-comment scan -/

lemma getD_drop (l : Line) (s i : Nat) (c : Char) :
    (l.drop s).getD i c = l.getD (s + i) c := by
  simp [List.getD, List.getElem?_drop]

lemma getD_default_irrel {l : Line} {i : Nat} (h : i < l.length) (c d : Char) :
    l.getD i c = l.getD i d := by
  simp [List.getD, List.getElem?_eq_getElem h]

lemma getD_mem {l : Line} {i : Nat} (h : i < l.length) (c : Char) : l.getD i c ∈ l := by
  rw [List.getD_eq_getElem l c h]
  exact List.getElem_mem h

lemma charFind_spec : ∀ {l : Line} {p : Char} {i : Nat}, charFind l p = some i →
    i < l.length ∧ l.getD i 'x' = p ∧ ∀ j, j < i → l.getD j 'x' ≠ p := by
  intro l
  induction l with
  | nil => intro p i h; cases h
  | cons c cs ih =>
    intro p i h
    by_cases hc : c = p
    · rw [show charFind (c :: cs) p = some 0 from by simp [charFind, hc]] at h
      injection h with h
      subst h
      exact ⟨by simp, by simpa using hc, fun j hj => absurd hj (by omega)⟩
    · rw [show charFind (c :: cs) p = (charFind cs p).map (fun x => x + 1) from by
        simp [charFind, hc]] at h
      rcases hcs : charFind cs p with _ | i0
      · rw [hcs] at h; cases h
      · rw [hcs] at h
        injection h with h
        obtain ⟨h1, h2, h3⟩ := ih hcs
        have hii : i = i0 + 1 := by rw [← h]
        subst hii
        refine ⟨by simpa using h1, by simpa using h2, ?_⟩
        intro j hj
        rcases j with _ | j0
        · simpa using hc
        · simpa using h3 j0 (by omega)

lemma charFind_none_not_mem : ∀ {l : Line} {p : Char}, charFind l p = Option.none → p ∉ l := by
  intro l
  induction l with
  | nil => intro p _; simp
  | cons c cs ih =>
    intro p h hm
    by_cases hc : c = p
    · rw [show charFind (c :: cs) p = some 0 from by simp [charFind, hc]] at h; cases h
    · rcases List.mem_cons.mp hm with rfl | hm2
      · exact hc rfl
      · rw [show charFind (c :: cs) p = (charFind cs p).map (fun x => x + 1) from by
          simp [charFind, hc]] at h
        rcases hcs : charFind cs p with _ | i0
        · exact ih hcs hm2
        · rw [hcs] at h; cases h

lemma charFindFrom_spec {l : Line} {p : Char} {s j : Nat}
    (h : charFindFrom l p s = some j) :
    s ≤ j ∧ j < l.length ∧ l.getD j 'x' = p := by
  unfold charFindFrom at h
  rcases hx : charFind (l.drop s) p with _ | i
  · rw [hx] at h; cases h
  · rw [hx] at h
    injection h with h
    obtain ⟨h1, h2, _⟩ := charFind_spec hx
    rw [List.length_drop] at h1
    have hjs : j = i + s := by rw [← h]
    subst hjs
    refine ⟨by omega, by omega, ?_⟩
    rw [Nat.add_comm i s, ← getD_drop]
    exact h2

lemma contribFrom_zero (l : Line) (p : Char) : contribFrom l p 0 = contrib l p := by
  unfold contribFrom contrib
  rw [charFindFrom_zero]

lemma contrib_eq_some {l : Line} {p : Char} {i : Nat} (h : contrib l p = some i) :
    charFind l p = some i ∧ validAt l i = true := by
  unfold contrib at h
  rcases hf : charFind l p with _ | i0
  · rw [hf] at h; cases h
  · rw [hf] at h
    have h2 : (if validAt l i0 then some i0 else Option.none) = some i := h
    by_cases hv : validAt l i0 = true
    · rw [if_pos hv] at h2
      injection h2 with h2
      subst h2
      exact ⟨rfl, hv⟩
    · rw [if_neg hv] at h2; cases h2

lemma contrib_of_first {l : Line} {p : Char} {i : Nat}
    (hf : charFind l p = some i) (hv : validAt l i = true) : contrib l p = some i := by
  unfold contrib
  rw [hf]
  show (if validAt l i then some i else Option.none) = some i
  rw [if_pos hv]

lemma inlineRound_fst (l : Line) : ∀ ms : List (Char × Nat),
    (inlineRound l ms).1 =
      ms.foldr (fun e acc => minOpt (contribFrom l e.1 e.2) acc) Option.none := by
  intro ms
  induction ms with
  | nil => rfl
  | cons e rest ih =>
    rcases e with ⟨p, s⟩
    rw [List.foldr_cons, ← ih]
    show (inlineRound l ((p, s) :: rest)).1 = minOpt (contribFrom l p s) (inlineRound l rest).1
    rcases h : charFindFrom l p s with _ | i
    · rw [show (inlineRound l ((p, s) :: rest)).1 = (inlineRound l rest).1 from by
        simp [inlineRound, h]]
      rw [show contribFrom l p s = Option.none from by simp [contribFrom, h]]
      rfl
    · by_cases hv : validAt l i = true
      · rw [show (inlineRound l ((p, s) :: rest)).1 = minOpt (some i) (inlineRound l rest).1
          from by simp [inlineRound, h, hv]]
        rw [show contribFrom l p s = some i from by simp [contribFrom, h, hv]]
      · rw [show (inlineRound l ((p, s) :: rest)).1 = (inlineRound l rest).1 from by
          simp [inlineRound, h, hv]]
        rw [show contribFrom l p s = Option.none from by simp [contribFrom, h, hv]]
        rfl

lemma inlineRound_snd_mem (l : Line) : ∀ (ms : List (Char × Nat)) (q : Char × Nat),
    q ∈ (inlineRound l ms).2 →
    ∃ p s i, (p, s) ∈ ms ∧ charFindFrom l p s = some i ∧ q = (p, i + 1) := by
  intro ms
  induction ms with
  | nil => intro q hq; simp [inlineRound] at hq
  | cons e rest ih =>
    rcases e with ⟨p, s⟩
    intro q hq
    rcases h : charFindFrom l p s with _ | i
    · rw [show (inlineRound l ((p, s) :: rest)).2 = (inlineRound l rest).2 from by
        simp [inlineRound, h]] at hq
      obtain ⟨p1, s1, i1, hm, hf, hqe⟩ := ih q hq
      exact ⟨p1, s1, i1, List.mem_cons_of_mem _ hm, hf, hqe⟩
    · rw [show (inlineRound l ((p, s) :: rest)).2 = (p, i + 1) :: (inlineRound l rest).2
        from by simp [inlineRound, h]] at hq
      rcases List.mem_cons.mp hq with rfl | hq2
      · exact ⟨p, s, i, by simp, h, rfl⟩
      · obtain ⟨p1, s1, i1, hm, hf, hqe⟩ := ih q hq2
        exact ⟨p1, s1, i1, List.mem_cons_of_mem _ hm, hf, hqe⟩

lemma minOpt3_some {a b c : Option Nat} {k : Nat}
    (h : minOpt a (minOpt b (minOpt c Option.none)) = some k) :
    (a = some k ∨ b = some k ∨ c = some k) ∧
    (∀ x, a = some x → k ≤ x) ∧ (∀ x, b = some x → k ≤ x) ∧ (∀ x, c = some x → k ≤ x) := by
  rcases a with _ | x <;> rcases b with _ | y <;> rcases c with _ | z <;>
    simp_all [minOpt] <;> omega

lemma minOpt3_none {a b c : Option Nat}
    (h : minOpt a (minOpt b (minOpt c Option.none)) = Option.none) :
    a = Option.none ∧ b = Option.none ∧ c = Option.none := by
  rcases a with _ | x <;> rcases b with _ | y <;> rcases c with _ | z <;> simp_all [minOpt]

lemma foldrMin_eq_none {xs : List Nat}
    (h : xs.foldr (fun i acc => minOpt (some i) acc) Option.none = Option.none) :
    xs = [] := by
  rcases xs with _ | ⟨x, rest⟩
  · rfl
  · exfalso
    rw [List.foldr_cons] at h
    rcases hr : rest.foldr (fun i acc => minOpt (some i) acc) Option.none with _ | m
    · rw [hr] at h; simp [minOpt] at h
    · rw [hr] at h; simp [minOpt] at h

lemma foldrMin_eq_some : ∀ (xs : List Nat) (k : Nat),
    xs.foldr (fun i acc => minOpt (some i) acc) Option.none = some k ↔
      k ∈ xs ∧ ∀ j ∈ xs, k ≤ j := by
  intro xs
  induction xs with
  | nil => intro k; simp
  | cons x rest ih =>
    intro k
    rw [List.foldr_cons]
    rcases hr : rest.foldr (fun i acc => minOpt (some i) acc) Option.none with _ | m
    · have hnil : rest = [] := foldrMin_eq_none hr
      subst hnil
      simp [minOpt]
      omega
    · have hm := (ih m).mp hr
      constructor
      · intro h
        have hk : min x m = k := by
          rw [show minOpt (some x) (some m) = some (min x m) from rfl] at h
          injection h
        constructor
        · rcases Nat.le_total x m with hxm | hmx
          · rw [← hk, Nat.min_eq_left hxm]; exact List.mem_cons_self x rest
          · rw [← hk, Nat.min_eq_right hmx]; exact List.mem_cons_of_mem _ hm.1
        · intro j hj
          rcases List.mem_cons.mp hj with rfl | hj2
          · rw [← hk]; exact Nat.min_le_left _ _
          · rw [← hk]; exact le_trans (Nat.min_le_right _ _) (hm.2 j hj2)
      · intro hh
        obtain ⟨hk, hmin⟩ := hh
        have h1 : k ≤ x := hmin x (List.mem_cons_self x rest)
        have h2 : k ≤ m := hmin m (List.mem_cons_of_mem _ hm.1)
        have h3 : min x m ≤ k := by
          rcases List.mem_cons.mp hk with rfl | hk2
          · exact Nat.min_le_left _ _
          · exact le_trans (Nat.min_le_right _ _) (hm.2 k hk2)
        have h4 : min x m = k := Nat.le_antisymm h3 (Nat.le_min.mpr ⟨h1, h2⟩)
        rw [show minOpt (some x) (some m) = some (min x m) from rfl, h4]

lemma specInlineStart_eq_some {l : Line} {k : Nat} :
    specInlineStart l = some k ↔
      (k < l.length ∧ specValid l k = true ∧
        ∀ j, j < l.length → specValid l j = true → k ≤ j) := by
  unfold specInlineStart
  rw [foldrMin_eq_some]
  constructor
  · intro h
    obtain ⟨hmem, hmin⟩ := h
    have hk := List.mem_filter.mp hmem
    refine ⟨List.mem_range.mp hk.1, hk.2, ?_⟩
    intro j hj hv
    exact hmin j (List.mem_filter.mpr ⟨List.mem_range.mpr hj, hv⟩)
  · intro h
    obtain ⟨h1, h2, h3⟩ := h
    refine ⟨List.mem_filter.mpr ⟨List.mem_range.mpr h1, h2⟩, ?_⟩
    intro j hj
    have hk := List.mem_filter.mp hj
    exact h3 j (List.mem_range.mp hk.1) hk.2

lemma specInlineStart_eq_none {l : Line}
    (h : ∀ j, j < l.length → specValid l j = false) :
    specInlineStart l = Option.none := by
  have hfil : (List.range l.length).filter (fun i => specValid l i) = [] := by
    apply List.filter_eq_nil_iff.mpr
    intro a ha
    simp [h a (List.mem_range.mp ha)]
  unfold specInlineStart
  rw [hfil]
  rfl

lemma mem_of_contains {xs : List Char} {c : Char} (h : xs.contains c = true) : c ∈ xs := by
  simpa using h

lemma specValid_of_contrib {l : Line} {p : Char} (hp : p ∈ inlineMarkers)
    {i : Nat} (hf : charFind l p = some i) (hv : validAt l i = true) :
    i < l.length ∧ specValid l i = true := by
  obtain ⟨h1, h2, _⟩ := charFind_spec hf
  refine ⟨h1, ?_⟩
  unfold specValid
  rw [getD_default_irrel h1 ' ' 'x', h2, hv]
  simpa using hp

lemma contrib_of_specValid {l : Line} {j : Nat}
    (hone : ∀ p ∈ inlineMarkers, ∀ i1 i2, i1 < i2 → i2 < l.length →
      l.getD i1 'x' = p → l.getD i2 'x' = p → False)
    (hj : j < l.length) (hv : specValid l j = true) :
    ∃ p, p ∈ inlineMarkers ∧ contrib l p = some j := by
  unfold specValid at hv
  rw [Bool.and_eq_true] at hv
  obtain ⟨hc, hva⟩ := hv
  have hpm : l.getD j ' ' ∈ inlineMarkers := mem_of_contains hc
  have hpm2 : l.getD j 'x' ∈ inlineMarkers := getD_default_irrel hj ' ' 'x' ▸ hpm
  have hmem : l.getD j 'x' ∈ l := getD_mem hj 'x'
  rcases hcf : charFind l (l.getD j 'x') with _ | i0
  · exact absurd hmem (charFind_none_not_mem hcf)
  · obtain ⟨hb, hg, hmin⟩ := charFind_spec hcf
    have hij : i0 = j := by
      rcases Nat.lt_trichotomy i0 j with hlt | heq | hgt
      · exact (hone (l.getD j 'x') hpm2 i0 j hlt hj hg rfl).elim
      · exact heq
      · exact absurd rfl (hmin j hgt)
    subst hij
    exact ⟨l.getD i0 'x', hpm2, contrib_of_first hcf hva⟩

lemma inlineLoop_succ (l : Line) (fuel : Nat) (e : Char × Nat) (ms : List (Char × Nat)) :
    inlineLoop l (fuel + 1) (e :: ms) =
      (match (inlineRound l (e :: ms)).1 with
       | some i => some i
       | Option.none => inlineLoop l fuel (inlineRound l (e :: ms)).2) := rfl

lemma commentStart_eq_spec {l : Line}
    (hone : ∀ p ∈ inlineMarkers, ∀ i2, i2 < l.length → ∀ i1, i1 < i2 →
      l.getD i1 'x' = p → l.getD i2 'x' = p → False) :
    commentStart l = specCommentStart l := by
  have hone2 : ∀ p ∈ inlineMarkers, ∀ i1 i2, i1 < i2 → i2 < l.length →
      l.getD i1 'x' = p → l.getD i2 'x' = p → False :=
    fun p hp i1 i2 h12 h2 hg1 hg2 => hone p hp i2 h2 i1 h12 hg1 hg2
  unfold commentStart specCommentStart
  by_cases hf : isFullLineComment l = true
  · rw [if_pos hf, if_pos hf]
  · rw [if_neg hf, if_neg hf]
    show inlineLoop l (l.length + 2) [(';', 0), ('#', 0), (':', 0)] = specInlineStart l
    have hfst : (inlineRound l [(';', 0), ('#', 0), (':', 0)]).1 =
        minOpt (contrib l ';') (minOpt (contrib l '#')
          (minOpt (contrib l ':') Option.none)) := by
      rw [inlineRound_fst l [(';', 0), ('#', 0), (':', 0)],
        show ([(';', 0), ('#', 0), (':', 0)].foldr
            (fun e acc => minOpt (contribFrom l e.1 e.2) acc) Option.none) =
          minOpt (contribFrom l ';' 0) (minOpt (contribFrom l '#' 0)
            (minOpt (contribFrom l ':' 0) Option.none)) from rfl,
        contribFrom_zero, contribFrom_zero, contribFrom_zero]
    rw [show (l.length + 2 : Nat) = (l.length + 1) + 1 from rfl, inlineLoop_succ]
    rcases hm : (inlineRound l [(';', 0), ('#', 0), (':', 0)]).1 with _ | k
    · -- no valid occurrence found in the first round
      rw [hm] at hfst
      obtain ⟨hc1, hc2, hc3⟩ := minOpt3_none hfst.symm
      show inlineLoop l (l.length + 1)
        (inlineRound l [(';', 0), ('#', 0), (':', 0)]).2 = specInlineStart l
      have hnext : ∀ e ∈ (inlineRound l [(';', 0), ('#', 0), (':', 0)]).2,
          charFindFrom l e.1 e.2 = Option.none := by
        intro e he
        obtain ⟨p, s, i, hpm, hfind, hqe⟩ :=
          inlineRound_snd_mem l [(';', 0), ('#', 0), (':', 0)] e he
        subst hqe
        have hps : p ∈ inlineMarkers ∧ s = 0 := by
          simp only [List.mem_cons, List.not_mem_nil, or_false, Prod.mk.injEq] at hpm
          rcases hpm with ⟨rfl, rfl⟩ | ⟨rfl, rfl⟩ | ⟨rfl, rfl⟩ <;> exact ⟨by decide, rfl⟩
        obtain ⟨hp, rfl⟩ := hps
        show charFindFrom l p (i + 1) = Option.none
        rcases hff : charFindFrom l p (i + 1) with _ | j2
        · rfl
        · exfalso
          obtain ⟨hsj, hjl, hgj⟩ := charFindFrom_spec hff
          have hcf : charFind l p = some i := by rw [← charFindFrom_zero]; exact hfind
          obtain ⟨_, hgi, _⟩ := charFind_spec hcf
          exact hone2 p hp i j2 (by omega) hjl hgi hgj
      have hround2 : inlineRound l (inlineRound l [(';', 0), ('#', 0), (':', 0)]).2 =
          (Option.none, []) := inlineRound_of_none hnext
      have hspec : specInlineStart l = Option.none := by
        apply specInlineStart_eq_none
        intro j hj
        rcases hvj : specValid l j with _ | _
        · rfl
        · exfalso
          obtain ⟨p, hp, hcj⟩ := contrib_of_specValid hone2 hj hvj
          have hp3 : p = ';' ∨ p = '#' ∨ p = ':' := by simpa [inlineMarkers] using hp
          rcases hp3 with rfl | rfl | rfl
          · rw [hcj] at hc1; simp at hc1
          · rw [hcj] at hc2; simp at hc2
          · rw [hcj] at hc3; simp at hc3
      rcases hnx : (inlineRound l [(';', 0), ('#', 0), (':', 0)]).2 with _ | ⟨e0, erest⟩
      · rw [inlineLoop_nil, hspec]
      · rw [hnx] at hround2
        rw [inlineLoop_succ, hround2]
        show inlineLoop l l.length [] = specInlineStart l
        rw [inlineLoop_nil, hspec]
    · -- the first round already found a valid occurrence
      show some k = specInlineStart l
      rw [hm] at hfst
      obtain ⟨hor, hb1, hb2, hb3⟩ := minOpt3_some hfst.symm
      symm
      rw [specInlineStart_eq_some]
      have hks : k < l.length ∧ specValid l k = true := by
        rcases hor with h | h | h
        · obtain ⟨hcf, hva⟩ := contrib_eq_some h
          exact specValid_of_contrib (by decide) hcf hva
        · obtain ⟨hcf, hva⟩ := contrib_eq_some h
          exact specValid_of_contrib (by decide) hcf hva
        · obtain ⟨hcf, hva⟩ := contrib_eq_some h
          exact specValid_of_contrib (by decide) hcf hva
      refine ⟨hks.1, hks.2, ?_⟩
      intro j hj hvj
      obtain ⟨p, hp, hcj⟩ := contrib_of_specValid hone2 hj hvj
      have hp3 : p = ';' ∨ p = '#' ∨ p = ':' := by simpa [inlineMarkers] using hp
      rcases hp3 with rfl | rfl | rfl
      · exact hb1 j hcj
      · exact hb2 j hcj
      · exact hb3 j hcj

/-! ### Claim theorems -/

/-- Claim C10: because `:` is both an inline comment marker and a delimiter,
a line of the form `name : value` whose first `:` is immediately preceded by
whitespace (here: `name` nonempty, free of whitespace, comment markers and
delimiters, not opening a bracket, `value` arbitrary) is truncated by comment
stripping at that colon, leaving only `name`; the remainder matches no option
pattern, so whatever the parser state, the line registers no option at all —
the option-name shape of the document is unchanged — and records no error. -/
theorem c10_theorem (cfg : Config) (st : ReadState) (k : Nat) (n v : Line)
    (hn : n ≠ []) (hmk : markerFree n) (hwf : wsFree n) (hdl : delimFree n)
    (hbr : n.head? ≠ some '[') :
    effectiveValue (n ++ ' ' :: ':' :: ' ' :: v) = n ∧
    ∃ st', processLine cfg st k (n ++ ' ' :: ':' :: ' ' :: v) = Except.ok st' ∧
      docShape st'.doc = docShape st.doc ∧ st'.err = st.err := by
  have hev := effectiveValue_colonLine v hn hmk hwf
  refine ⟨hev, ?_⟩
  have hne : n.isEmpty = false := by
    rcases n with _ | ⟨c, t⟩
    · cases hn rfl
    · rfl
  have hsm : sectMatch n = Option.none := by
    rcases n with _ | ⟨c, t⟩
    · cases hn rfl
    · exact sectMatch_eq_none rfl (fun hc => hbr (by rw [hc]; rfl))
  simp only [processLine, hev, hne, Bool.false_eq_true, if_false]
  by_cases hg : (st.cursect.isSome && optTruthy st.optname &&
      indentGT (curIndentLevel (n ++ ' ' :: ':' :: ' ' :: v)) st.indentLevel) = true
  · rw [if_pos hg]
    rcases hcur : st.cursect with _ | ref
    · rw [hcur] at hg; simp at hg
    · rcases hopt : st.optname with _ | optn
      · rw [hopt] at hg; simp [optTruthy] at hg
      · exact ⟨_, rfl, by simp [docShape_setSectOp_append], rfl⟩
  · rw [if_neg hg]
    rw [hsm]
    rcases hcur : st.cursect with _ | ref
    · cases hsk : st.skipHeader
      · exact ⟨_, rfl, rfl, rfl⟩
      · exact ⟨_, rfl, rfl, rfl⟩
    · rw [optMatch_eq_none hdl]
      exact ⟨_, rfl, rfl, rfl⟩

/-- Witness for C10: the spec's own example line `name : value`, processed in
the state reached after a `[s]` header. -/
theorem c10_witness :
    effectiveValue ("name".data ++ ' ' :: ':' :: ' ' :: "value".data) = "name".data ∧
    ∃ st', processLine mugenCfg (initState emptyPDoc) 2
        ("name".data ++ ' ' :: ':' :: ' ' :: "value".data) = Except.ok st' ∧
      docShape st'.doc = docShape (initState emptyPDoc).doc ∧
      st'.err = (initState emptyPDoc).err :=
  c10_theorem mugenCfg (initState emptyPDoc) 2 "name".data "value".data
    (by decide) (by decide) (by decide) (by decide) (by decide)


/-- Claim C1 (counterexample): the claim says a lone token with no delimiter
inside an open section registers as an option with an Absent value; in fact
`MugenParser` never enables `allow_no_value`, so the line matches no option
pattern and is skipped — parsing `[s]` then `enabled` yields a section `s`
with no options at all. -/
theorem c1_counterexample :
    parseDoc ["[s]", "enabled"] = Except.ok ⟨[("s".data, [])], []⟩ := by decide

/-- Claim C1 (amended): inside an open section (no option currently open), a
nonblank line that is a single token containing no comment marker, no
delimiter, no whitespace and not opening a bracket is silently skipped: the
parse state is unchanged except for the indentation threshold, no option is
registered, and no error is recorded. -/
theorem c1_amended_theorem (cfg : Config) (st : ReadState) (k : Nat) (ref : SectRef)
    (n : Line) (hcur : st.cursect = some ref) (hopt : st.optname = Option.none)
    (hn : n ≠ []) (hmk : markerFree n) (hwf : wsFree n) (hdl : delimFree n)
    (hbr : n.head? ≠ some '[') :
    processLine cfg st k n = Except.ok { st with indentLevel := some 0 } := by
  have hev : effectiveValue n = n := by
    rw [effectiveValue_of_markerFree hmk, pyStrip_of_wsFree hwf]
  have hne : n.isEmpty = false := isEmpty_eq_false hn
  have hci : curIndentLevel n = 0 := by
    rcases n with _ | ⟨c, t⟩
    · cases hn rfl
    · exact curIndentLevel_cons t (hwf c (by simp))
  have hsm : sectMatch n = Option.none := by
    rcases n with _ | ⟨c, t⟩
    · cases hn rfl
    · exact sectMatch_eq_none rfl (fun hc => hbr (by rw [hc]; rfl))
  simp only [processLine, hev, hne, Bool.false_eq_true, if_false, hopt, hcur, hci, hsm,
    optTruthy, Bool.and_false, Bool.false_and, optMatch_eq_none hdl]
  rfl

/-- Witness for the amended C1: token `enabled` in the state reached after a
`[s]` header. -/
theorem c1_amended_witness :
    processLine mugenCfg ⟨⟨[("s".data, [])], []⟩, [ElemKey.sec "s".data],
        some (SectRef.named "s".data), some "s".data, Option.none, some 0, false,
        Option.none⟩ 2 "enabled".data =
      Except.ok { (⟨⟨[("s".data, [])], []⟩, [ElemKey.sec "s".data],
        some (SectRef.named "s".data), some "s".data, Option.none, some 0, false,
        Option.none⟩ : ReadState) with indentLevel := some 0 } :=
  c1_amended_theorem mugenCfg _ 2 (SectRef.named "s".data) "enabled".data rfl rfl
    (by decide) (by decide) (by decide) (by decide) (by decide)

/-- Claim C4 (counterexample): the claim says a blank content line always
resets the indent threshold to an unreachable maximum; with
`empty_lines_in_values` enabled (this parser's configuration) the threshold
is left unchanged — after `[s]`, `a = 1`, and a blank line, `indentLevel` is
still `some 0` (not the `none` sentinel), and the deeper-indented line `  b`
is still treated as a continuation, giving `a = "1\n\nb"`. -/
theorem c4_counterexample :
    readAux mugenCfg (initState emptyPDoc) 1 (["[s]", "a = 1", ""].map String.data) =
      Except.ok ⟨⟨[("s".data, [("a".data, OptVal.frags ["1".data, []])])], []⟩,
        [ElemKey.sec "s".data, ElemKey.opt (some "s".data) "a".data],
        some (SectRef.named "s".data), some "s".data, some "a".data, some 0, false,
        Option.none⟩ ∧
    parseDoc ["[s]", "a = 1", "", "  b"] =
      Except.ok ⟨[("s".data, [("a".data, OptVal.str "1\n\nb".data)])], []⟩ := by
  constructor
  · decide
  · decide

/-- Claim C4 (amended): a line whose effective content is blank resets the
indent threshold to the unreachable maximum only when
`empty_lines_in_values` is disabled; when it is enabled (as in
`MugenParser`), the blank line leaves every state component except the
document unchanged — in particular the indent threshold keeps its value. -/
theorem c4_amended_theorem (cfg : Config) (st : ReadState) (k : Nat) (l : Line)
    (hblank : effectiveValue l = []) :
    (cfg.emptyLinesInValues = true →
      ∃ d', processLine cfg st k l = Except.ok { st with doc := d' }) ∧
    (cfg.emptyLinesInValues = false →
      processLine cfg st k l = Except.ok { st with indentLevel := Option.none }) := by
  constructor
  · intro hE
    simp only [processLine, hblank, List.isEmpty_nil, if_true, hE]
    by_cases hcs : (commentStart l).isNone = true
    · rw [if_pos hcs]
      split
      · split
        · exact ⟨_, rfl⟩
        · exact ⟨st.doc, rfl⟩
      · exact ⟨st.doc, rfl⟩
    · rw [if_neg hcs]
      exact ⟨st.doc, rfl⟩
  · intro hE
    simp only [processLine, hblank, List.isEmpty_nil, if_true, hE, Bool.false_eq_true,
      if_false]

/-- Witness for the amended C4: a blank line in the state reached after
`[s]` and `a = 1`, under both configurations. -/
theorem c4_amended_witness :
    (∃ d', processLine ⟨false, true⟩ ⟨⟨[("s".data, [("a".data, OptVal.frags ["1".data])])], []⟩,
      [ElemKey.sec "s".data, ElemKey.opt (some "s".data) "a".data],
      some (SectRef.named "s".data), some "s".data, some "a".data, some 0, false,
      Option.none⟩ 3 [] =
      Except.ok { (⟨⟨[("s".data, [("a".data, OptVal.frags ["1".data])])], []⟩,
        [ElemKey.sec "s".data, ElemKey.opt (some "s".data) "a".data],
        some (SectRef.named "s".data), some "s".data, some "a".data, some 0, false,
        Option.none⟩ : ReadState) with doc := d' }) ∧
    processLine ⟨false, false⟩ ⟨⟨[("s".data, [("a".data, OptVal.frags ["1".data])])], []⟩,
      [ElemKey.sec "s".data, ElemKey.opt (some "s".data) "a".data],
      some (SectRef.named "s".data), some "s".data, some "a".data, some 0, false,
      Option.none⟩ 3 [] =
      Except.ok { (⟨⟨[("s".data, [("a".data, OptVal.frags ["1".data])])], []⟩,
        [ElemKey.sec "s".data, ElemKey.opt (some "s".data) "a".data],
        some (SectRef.named "s".data), some "s".data, some "a".data, some 0, false,
        Option.none⟩ : ReadState) with indentLevel := Option.none } :=
  ⟨(c4_amended_theorem ⟨false, true⟩ _ 3 [] (by decide)).1 rfl,
   (c4_amended_theorem ⟨false, false⟩ _ 3 [] (by decide)).2 rfl⟩

/-- Claim C5: two declarations of the same option in the same section (any
name and values of the constrained shapes, e.g. `x = 1` then `x = 2`): in
lenient mode the later value replaces the earlier one, so the final value is
the second declaration's; in strict mode the second declaration raises
`DuplicateOption` naming the section, the option, and the line. -/
theorem c5_theorem (n v1 v2 : Line)
    (hn : n ≠ []) (hmk : markerFree n) (hwf : wsFree n) (hdl : delimFree n)
    (hbr : n.head? ≠ some '[')
    (hv1 : v1 ≠ []) (hv1mk : markerFree v1) (hv1h : headNotWs v1) (hv1l : lastNotWs v1)
    (hv2 : v2 ≠ []) (hv2mk : markerFree v2) (hv2h : headNotWs v2) (hv2l : lastNotWs v2) :
    readLines ⟨false, true⟩ emptyPDoc
        ["[s]".data, n ++ ' ' :: '=' :: ' ' :: v1, n ++ ' ' :: '=' :: ' ' :: v2] =
      Except.ok ⟨[("s".data, [(lowerLine n, OptVal.str v2)])], []⟩ ∧
    readLines ⟨true, true⟩ emptyPDoc
        ["[s]".data, n ++ ' ' :: '=' :: ' ' :: v1, n ++ ' ' :: '=' :: ' ' :: v2] =
      Except.error (ReadError.duplicateOption (some "s".data) (lowerLine n) 3) := by
  constructor
  · have hA : processLine ⟨false, true⟩ (initState emptyPDoc) 1 "[s]".data =
        Except.ok ⟨⟨[("s".data, [])], []⟩, [ElemKey.sec "s".data],
          some (SectRef.named "s".data), some "s".data, Option.none, some 0, false,
          Option.none⟩ := by decide
    have hB := processLine_assign ⟨false, true⟩
      ⟨⟨[("s".data, [])], []⟩, [ElemKey.sec "s".data],
        some (SectRef.named "s".data), some "s".data, Option.none, some 0, false,
        Option.none⟩ 2 n v1 rfl rfl hn hmk hwf hdl hbr hv1 hv1mk hv1h hv1l rfl
    have hC := processLine_assign ⟨false, true⟩
      ⟨⟨[("s".data, [(lowerLine n, OptVal.frags [v1])])], []⟩,
        [ElemKey.sec "s".data, ElemKey.opt (some "s".data) (lowerLine n)],
        some (SectRef.named "s".data), some "s".data, some (lowerLine n), some 0, false,
        Option.none⟩ 3 n v2 rfl (by simp [indentGT]) hn hmk hwf hdl hbr
      hv2 hv2mk hv2h hv2l rfl
    have hrun := readAux_three hA hB hC
    rw [readLines_of_readAux hrun rfl]
    simp [setSectOp, dictSet, elemAdd, joinPDoc, joinSect, joinOptVal, joinNL,
      pyRStrip_eq_self' hv2 hv2l]
  · have hA : processLine ⟨true, true⟩ (initState emptyPDoc) 1 "[s]".data =
        Except.ok ⟨⟨[("s".data, [])], []⟩, [ElemKey.sec "s".data],
          some (SectRef.named "s".data), some "s".data, Option.none, some 0, false,
          Option.none⟩ := by decide
    have hB := processLine_assign ⟨true, true⟩
      ⟨⟨[("s".data, [])], []⟩, [ElemKey.sec "s".data],
        some (SectRef.named "s".data), some "s".data, Option.none, some 0, false,
        Option.none⟩ 2 n v1 rfl rfl hn hmk hwf hdl hbr hv1 hv1mk hv1h hv1l (by simp)
    have hC := processLine_assign_strict ⟨true, true⟩
      ⟨⟨[("s".data, [(lowerLine n, OptVal.frags [v1])])], []⟩,
        [ElemKey.sec "s".data, ElemKey.opt (some "s".data) (lowerLine n)],
        some (SectRef.named "s".data), some "s".data, some (lowerLine n), some 0, false,
        Option.none⟩ 3 n v2 (by simp [indentGT]) rfl hn hmk hwf hdl hbr
      hv2 hv2mk hv2l (by simp)
    have hrun := readAux_three_err hA hB hC
    rw [readLines_of_readAux_err hrun]

/-- Witness for C5 at the spec's own example `x = 1` / `x = 2`. -/
theorem c5_witness :
    readLines ⟨false, true⟩ emptyPDoc
        ["[s]".data, "x".data ++ ' ' :: '=' :: ' ' :: "1".data,
         "x".data ++ ' ' :: '=' :: ' ' :: "2".data] =
      Except.ok ⟨[("s".data, [(lowerLine "x".data, OptVal.str "2".data)])], []⟩ ∧
    readLines ⟨true, true⟩ emptyPDoc
        ["[s]".data, "x".data ++ ' ' :: '=' :: ' ' :: "1".data,
         "x".data ++ ' ' :: '=' :: ' ' :: "2".data] =
      Except.error (ReadError.duplicateOption (some "s".data) (lowerLine "x".data) 3) :=
  c5_theorem "x".data "1".data "2".data (by decide) (by decide) (by decide) (by decide)
    (by decide) (by decide) (by decide) (by decide) (by decide) (by decide) (by decide)
    (by decide) (by decide)


/-- Claim C3 (counterexample): the claim says a line like `=== broken ===`
inside an open section is silently discarded with no error ever raised; in
fact it matches the option pattern with an empty name, `_handle_error` queues
a deferred `ParsingError`, and the parse raises it at end of input. -/
theorem c3_counterexample :
    parseDoc ["[s]", "=== broken ===", "x = 1"] =
      Except.error (ReadError.parsingError [(2, "=== broken ===".data)]) := by decide

/-- Claim C3 (amended): a malformed option line with a delimiter but no name
before it (such as `=== broken ===`) matches the option pattern with an empty
name: it registers an empty-named option holding the post-delimiter text,
records the line in the deferred `ParsingError` (raised at end of parse), and
scanning continues; only a line with no delimiter at all (such as
`@@@ bogus @@@`) is silently discarded, with subsequent lines parsed
normally and no error at all. -/
theorem c3_amended_theorem :
    readAux mugenCfg (initState emptyPDoc) 1 (["[s]", "=== broken ==="].map String.data) =
      Except.ok ⟨⟨[("s".data, [([], OptVal.frags ["== broken ===".data])])], []⟩,
        [ElemKey.sec "s".data, ElemKey.opt (some "s".data) []],
        some (SectRef.named "s".data), some "s".data, some [], some 0, false,
        some [(2, "=== broken ===".data)]⟩ ∧
    parseDoc ["[s]", "@@@ bogus @@@", "x = 1"] =
      Except.ok ⟨[("s".data, [("x".data, OptVal.str "1".data)])], []⟩ := by
  constructor
  · decide
  · decide

/-- Claim C8 (counterexample): the claim says a second parse invocation on
the same parser instance starts with an empty Document; in fact
`self._sections` persists, so the second invocation's result still contains
section `a` from the first parse, merged with the new section `b`. -/
theorem c8_counterexample :
    readLines mugenCfg emptyPDoc (["[a]", "x = 1"].map String.data) =
      Except.ok ⟨[("a".data, [("x".data, OptVal.str "1".data)])], []⟩ ∧
    readLines mugenCfg ⟨[("a".data, [("x".data, OptVal.str "1".data)])], []⟩
        (["[b]", "y = 2"].map String.data) =
      Except.ok ⟨[("a".data, [("x".data, OptVal.str "1".data)]),
                  ("b".data, [("y".data, OptVal.str "2".data)])], []⟩ := by
  constructor
  · decide
  · decide

/-- Claim C8 (amended): only the duplicate-tracking set starts empty at each
`_read` invocation; the Document lives on the parser instance and persists,
so a second invocation merges into it.  Re-reading a section/option already
present from an earlier invocation does not raise in strict mode (fresh
`elements_added`), and the new declaration overwrites the old binding. -/
theorem c8_amended_theorem :
    readLines ⟨true, true⟩ ⟨[("a".data, [("x".data, OptVal.str "1".data)])], []⟩
        (["[a]", "x = 2"].map String.data) =
      Except.ok ⟨[("a".data, [("x".data, OptVal.str "2".data)])], []⟩ := by decide


/-- Claim C2 (counterexample): the claim says options under a header whose
trimmed, case-folded interior equals the reserved default-section name are
routed into the distinguished default Section; in fact `_read` lowercases the
header before comparing it with the uppercase reserved name `DEFAULT`, so
`[DEFAULT]` creates an ordinary section named `default` and the defaults
mapping stays empty. -/
theorem c2_counterexample :
    parseDoc ["[DEFAULT]", "x = 1"] =
      Except.ok ⟨[("default".data, [("x".data, OptVal.str "1".data)])], []⟩ := by decide

/-- Claim C2 (amended): a default-named header is handled like any other
section header — `[default]` creates the ordinary section `default` — and
the distinguished defaults mapping is never populated by any parse that
starts from an empty document, because a lowercased section name can never
equal the uppercase reserved name `DEFAULT`. -/
theorem c2_amended_theorem :
    parseDoc ["[default]", "x = 1"] =
      Except.ok ⟨[("default".data, [("x".data, OptVal.str "1".data)])], []⟩ ∧
    ∀ (cfg : Config) (lines : List Line) (d : PDoc),
      readLines cfg emptyPDoc lines = Except.ok d → d.defaults = [] := by
  constructor
  · decide
  · intro cfg lines d h
    unfold readLines at h
    rcases ha : readAux cfg (initState emptyPDoc) 1 lines with e | st
    · rw [ha] at h
      cases h
    · rw [ha] at h
      have h2 : (match st.err with
          | some es => Except.error (ReadError.parsingError es)
          | Option.none => Except.ok (joinPDoc st.doc)) = Except.ok d := h
      rcases he : st.err with _ | es
      · rw [he] at h2
        cases h2
        have hd0 := readAux_defaults_inv cfg lines (initState emptyPDoc) st 1 ha rfl
          (by intro hx; cases hx)
        simp [joinPDoc, hd0, joinSect_nil]
      · rw [he] at h2
        cases h2

/-- Witness for the amended C2: the concrete two-line `[DEFAULT]` input. -/
theorem c2_amended_witness :
    (⟨[("default".data, [("x".data, OptVal.str "1".data)])], []⟩ : PDoc).defaults = [] :=
  c2_amended_theorem.2 mugenCfg (["[DEFAULT]", "x = 1"].map String.data)
    ⟨[("default".data, [("x".data, OptVal.str "1".data)])], []⟩ (by decide)


/-- Claim C9: section headers differing only in letter case or in spaces
adjacent to the brackets' interior resolve to the same Section: for any
numbers of surrounding spaces, `[Data]`, `[data]`, `[DATA]` (and `[  data  ]`
etc.) all name the single section `data`, and an option declared under any of
them lands in that one section. -/
theorem c9_theorem (a b : Nat) (w : Line)
    (hw : w = "Data".data ∨ w = "data".data ∨ w = "DATA".data) :
    readLines mugenCfg emptyPDoc
        [('[' :: (spaces a ++ w ++ spaces b ++ [']'])), "x = 1".data] =
      Except.ok ⟨[("data".data, [("x".data, OptVal.str "1".data)])], []⟩ := by
  have hA : processLine mugenCfg (initState emptyPDoc) 1
      ('[' :: (spaces a ++ w ++ spaces b ++ [']'])) =
      Except.ok ⟨⟨[("data".data, [])], []⟩, [ElemKey.sec "data".data],
        some (SectRef.named "data".data), some "data".data, Option.none, some 0, false,
        Option.none⟩ := by
    rcases hw with rfl | rfl | rfl
    · rw [processLine_header_init mugenCfg 1 a b (by decide) (by decide) (by decide)
        (by decide) (by decide)]
      rfl
    · rw [processLine_header_init mugenCfg 1 a b (by decide) (by decide) (by decide)
        (by decide) (by decide)]
      rfl
    · rw [processLine_header_init mugenCfg 1 a b (by decide) (by decide) (by decide)
        (by decide) (by decide)]
      rfl
  have hB : processLine mugenCfg ⟨⟨[("data".data, [])], []⟩, [ElemKey.sec "data".data],
      some (SectRef.named "data".data), some "data".data, Option.none, some 0, false,
      Option.none⟩ 2 "x = 1".data =
      Except.ok ⟨⟨[("data".data, [("x".data, OptVal.frags ["1".data])])], []⟩,
        [ElemKey.sec "data".data, ElemKey.opt (some "data".data) "x".data],
        some (SectRef.named "data".data), some "data".data, some "x".data, some 0, false,
        Option.none⟩ := by decide
  rw [readLines_of_readAux (readAux_two hA hB) rfl]
  decide

/-- Witness for C9 at `[  data  ]` (two spaces each side) followed by
`x = 1`. -/
theorem c9_witness :
    readLines mugenCfg emptyPDoc
        [('[' :: (spaces 2 ++ "data".data ++ spaces 2 ++ [']'])), "x = 1".data] =
      Except.ok ⟨[("data".data, [("x".data, OptVal.str "1".data)])], []⟩ :=
  c9_theorem 2 2 "data".data (Or.inr (Or.inl rfl))


/-- Claim C6: an option declaration followed by any number of deeper-indented
continuation lines ends up, after the single post-scan join, with the
declaration value and the continuation contents joined by newlines in input
order (e.g. `desc = first line` plus two indented lines giving
`first line\nsecond line\nthird line`); and the join leaves Absent
(valueless) bindings Absent. -/
theorem c6_theorem (v1 : Line) (vs : List Line)
    (hv1 : v1 ≠ []) (hv1mk : markerFree v1) (hv1h : headNotWs v1) (hv1l : lastNotWs v1)
    (hvs : ∀ v ∈ vs, v ≠ [] ∧ markerFree v ∧ headNotWs v ∧ lastNotWs v) :
    readLines mugenCfg emptyPDoc
        ("[info]".data :: ("desc".data ++ ' ' :: '=' :: ' ' :: v1) ::
          vs.map (fun v => ' ' :: ' ' :: v)) =
      Except.ok ⟨[("info".data, [("desc".data, OptVal.str (joinNL (v1 :: vs)))])], []⟩ ∧
    (∀ (s : Sect) (optn : Line), dictGet s optn = some OptVal.pynone →
      dictGet (joinSect s) optn = some OptVal.pynone) := by
  refine ⟨?_, dictGet_joinSect_pynone⟩
  have hA : processLine mugenCfg (initState emptyPDoc) 1 "[info]".data =
      Except.ok ⟨⟨[("info".data, [])], []⟩, [ElemKey.sec "info".data],
        some (SectRef.named "info".data), some "info".data, Option.none, some 0, false,
        Option.none⟩ := by decide
  have hB := processLine_assign mugenCfg
    ⟨⟨[("info".data, [])], []⟩, [ElemKey.sec "info".data],
      some (SectRef.named "info".data), some "info".data, Option.none, some 0, false,
      Option.none⟩ 2 "desc".data v1 rfl rfl (by decide) (by decide) (by decide) (by decide)
    (by decide) hv1 hv1mk hv1h hv1l rfl
  have hrest := readAux_conts vs 3 [v1] hvs
  have hrun : readAux mugenCfg (initState emptyPDoc) 1
      ("[info]".data :: ("desc".data ++ ' ' :: '=' :: ' ' :: v1) ::
        vs.map (fun v => ' ' :: ' ' :: v)) =
      Except.ok ⟨⟨[("info".data, [("desc".data, OptVal.frags ([v1] ++ vs))])], []⟩,
        [ElemKey.sec "info".data, ElemKey.opt (some "info".data) "desc".data],
        some (SectRef.named "info".data), some "info".data, some "desc".data, some 0, false,
        Option.none⟩ := by
    rw [readAux_cons_ok hA, readAux_cons_ok hB]
    exact hrest
  rw [readLines_of_readAux hrun rfl]
  have hjoin : pyRStrip (joinNL ([v1] ++ vs)) = joinNL (v1 :: vs) := by
    rw [show ([v1] ++ vs : List Line) = v1 :: vs from rfl]
    refine pyRStrip_eq_self' ?_ ?_
    · exact joinNL_ne_nil (by simp) (by
        intro f hf
        rcases List.mem_cons.mp hf with rfl | hf
        · exact hv1
        · exact (hvs f hf).1)
    · refine lastNotWs_joinNL (v1 :: vs) ?_
      intro f hf
      rcases List.mem_cons.mp hf with rfl | hf
      · exact ⟨hv1, hv1l⟩
      · exact ⟨(hvs f hf).1, (hvs f hf).2.2.2⟩
  simp only [joinPDoc, joinSect, List.map_cons, List.map_nil, joinOptVal, hjoin]

/-- Witness for C6 at the spec's example: `desc = first line` with two
deeper-indented continuation lines. -/
theorem c6_witness :
    readLines mugenCfg emptyPDoc
        ("[info]".data :: ("desc".data ++ ' ' :: '=' :: ' ' :: "first line".data) ::
          (["second line".data, "third line".data].map (fun v => ' ' :: ' ' :: v))) =
      Except.ok ⟨[("info".data,
        [("desc".data, OptVal.str (joinNL ["first line".data, "second line".data,
          "third line".data]))])], []⟩ ∧
    (∀ (s : Sect) (optn : Line), dictGet s optn = some OptVal.pynone →
      dictGet (joinSect s) optn = some OptVal.pynone) :=
  c6_theorem "first line".data ["second line".data, "third line".data]
    (by decide) (by decide) (by decide) (by decide) (by decide)

/-- C7 counterexample: for the raw line `a#b # ;x` the code's round-based
scan discards from index 6 (the valid `;`), not from the spec's global
minimum index 4 (the second, whitespace-preceded `#`): the first round only
sees each marker's leftmost occurrence, and `#` at index 1 is invalid, so the
valid `#` at index 4 is never compared against the `;` found in round one. -/
theorem c7_counterexample :
    commentStart "a#b # ;x".data = some 6 ∧
    specCommentStart "a#b # ;x".data = some 4 ∧
    effectiveValue "a#b # ;x".data = "a#b #".data := by
  decide

/-- C7 (amended): the comment start is computed by a round-based scan — each
round advances every surviving marker to its next occurrence and takes the
minimum over the valid occurrences found in that round, stopping at the
first round that found one.  When no inline marker occurs more than once in
the line this coincides with the spec's global minimum over all valid
occurrences; the validity condition itself (position 0 or immediately
preceded by whitespace) and the spec's word-boundary examples hold as
stated. -/
theorem c7_amended_theorem (l : Line)
    (hone : ∀ p ∈ inlineMarkers, ∀ i2, i2 < l.length → ∀ i1, i1 < i2 →
      l.getD i1 'x' = p → l.getD i2 'x' = p → False) :
    commentStart l = specCommentStart l ∧
    effectiveValue "value = a;b".data = "value = a;b".data ∧
    effectiveValue "value = a ;comment".data = "value = a".data :=
  ⟨commentStart_eq_spec hone, by decide, by decide⟩

/-- Witness for C7 (amended) at the spec's own truncation example, in which
each inline marker occurs at most once. -/
theorem c7_amended_witness :
    commentStart "value = a ;comment".data = specCommentStart "value = a ;comment".data ∧
    effectiveValue "value = a;b".data = "value = a;b".data ∧
    effectiveValue "value = a ;comment".data = "value = a".data :=
  c7_amended_theorem "value = a ;comment".data (by decide)

end Mugen
